import Mathlib

/-!
Verification of the chronicleprotocol/go-lib virtual-filesystem layer.

This file gives a shallow embedding, in Lean 4, of the parts of the
go-lib repository that the verified claims are about:

* the error model of the `errors`/`fmt`/`errutil` conventions
  (`GoErr`, `errorIs`, `isPathError`, `errutilAppend`);
* the generic retry loop `retry.Try`/`retry.Try2` and the retry
  filesystem adapter (`try2Loop`, `goTry2`, `retryFSOp`);
* the chain filesystem (`chainFirstOk`, `chainGlob`, `chainReadDir`)
  together with the `sliceutil` sorted-insert helpers it relies on;
* the checksum filesystem (`checksumParam`, `checksumOpen`,
  `checksumReadFile`) together with the `net/url` query
  parsing/encoding it relies on;
* the gzip filesystem's read-limit logic (`gzipReadAll`);
* the HTTP filesystem's response mapping (`httpFSOpen`);
* the URI path normalization (`uriPath`, `pathClean`).

Go strings are modelled as lists of bytes (`GoStr`); Go's `string`
operations act on bytes and this keeps the embedding faithful for
arbitrary byte content.  Filesystems are modelled by the result each
inner backend returns for the request under consideration; stateful
backends (a backend that fails a number of times and then succeeds) are
modelled as functions from the call number to the call's result.
-/

/-- Go strings, modelled as their UTF-8 byte sequences. -/
abbrev GoStr := List Nat

/-- Conversion from a Lean string literal to the byte-list model of the
Go string (UTF-8 encoding, as in Go source literals). -/
def gs (s : String) : GoStr :=
  s.data.flatMap (fun c => (String.utf8EncodeChar c).map (fun b => b.toNat))

/-! ## The Go error model

Go errors relevant to the claims are: the sentinel errors of the `fs`,
`io`, `path` and `context` packages, errors created by `errors.New` /
`fmt.Errorf` without `%w` (modelled by `GoErr.msg`), single-wrap errors
created by `fmt.Errorf("...: %w", err)` (modelled by `GoErr.wrapf`,
keeping the prefix text), `fs.PathError` values (which unwrap to their
`Err` field), and `errutil.MultiError` (a slice of errors whose
`Unwrap() []error` returns all of them). -/

inductive GoErr where
  /-- `fs.ErrNotExist` (= `os.ErrNotExist`). -/
  | errNotExist
  /-- `fs.ErrPermission` (= `os.ErrPermission`). -/
  | errPermission
  /-- `path.ErrBadPattern`. -/
  | errBadPattern
  /-- `fs.ErrInvalid`. -/
  | errInvalid
  /-- `io.EOF`. -/
  | eof
  /-- `io.ErrUnexpectedEOF`. -/
  | unexpectedEOF
  /-- `context.Canceled`. -/
  | canceled
  /-- `context.DeadlineExceeded`. -/
  | deadlineExceeded
  /-- `fsutil.checksumFS: checksum mismatch` (`errChecksumFSMismatch`). -/
  | checksumMismatch
  /-- an error made by `errors.New` or `fmt.Errorf` without `%w`;
  the string is its message. -/
  | msg (s : String)
  /-- the generic status error of the HTTP filesystem
  (`errHTTPFSRequestErrorCodeFn`), built with `%d`, not `%w`. -/
  | statusCodeErr (code : Nat)
  /-- `fmt.Errorf("<tag>: %w", inner)`. -/
  | wrapf (tag : String) (inner : GoErr)
  /-- `fs.PathError{Op: op, Path: p, Err: inner}`; unwraps to `inner`. -/
  | pathError (op : String) (p : GoStr) (inner : GoErr)
  /-- `errutil.MultiError`, a list of errors. -/
  | multi (es : List GoErr)

/-- Structural equality of modelled Go error values (elementwise on
`multi`).  It serves as the model of Go's `==` identity comparison in
`errors.Is`: every distinct error value in the modelled program is
built exactly once, so value equality coincides with identity for the
errors the claims compare. -/
def goErrBeq : GoErr → GoErr → Bool
  | .errNotExist, .errNotExist => true
  | .errPermission, .errPermission => true
  | .errBadPattern, .errBadPattern => true
  | .errInvalid, .errInvalid => true
  | .eof, .eof => true
  | .unexpectedEOF, .unexpectedEOF => true
  | .canceled, .canceled => true
  | .deadlineExceeded, .deadlineExceeded => true
  | .checksumMismatch, .checksumMismatch => true
  | .msg a, .msg b => a == b
  | .statusCodeErr a, .statusCodeErr b => a == b
  | .wrapf a x, .wrapf b y => a == b && goErrBeq x y
  | .pathError a p x, .pathError b q y => a == b && p == q && goErrBeq x y
  | .multi [], .multi [] => true
  | .multi (x :: xs), .multi (y :: ys) => goErrBeq x y && goErrBeq (.multi xs) (.multi ys)
  | _, _ => false

/-- `errors.Is(e, target)`: identity at the current node, else unwrap.
`fmt.Errorf`-wrapped errors unwrap to the wrapped error, `fs.PathError`
unwraps to its `Err` field, and `errutil.MultiError` unwraps to all of
its elements (`Unwrap() []error`).  For a `MultiError` node the
identity comparison is skipped — in Go a slice-typed error is not
`==`-comparable, and `errors.Is` compares only when the target's type
is comparable and the node's dynamic type matches — so a `multi` node
contributes only its elements. -/
def errorIs : GoErr → GoErr → Bool
  | .wrapf a x, t => goErrBeq (.wrapf a x) t || errorIs x t
  | .pathError a p x, t => goErrBeq (.pathError a p x) t || errorIs x t
  | .multi [], _ => false
  | .multi (x :: xs), t => errorIs x t || errorIs (.multi xs) t
  | e, t => goErrBeq e t

/-- `isPathError` from `fsutil` v2: `errors.As(err, &e)` for
`*fs.PathError`, traversing the unwrap chain (elementwise through a
`MultiError`). -/
def isPathError : GoErr → Bool
  | .pathError _ _ _ => true
  | .wrapf _ inner => isPathError inner
  | .multi [] => false
  | .multi (x :: xs) => isPathError x || isPathError (.multi xs)
  | _ => false

/-- `isRetryable` from the retry filesystem: an error is retryable
unless it is `os.ErrNotExist`, `os.ErrPermission`, `path.ErrBadPattern`
or an `fs.PathError`. -/
def isRetryable (e : GoErr) : Bool :=
  !errorIs e .errNotExist && !errorIs e .errPermission &&
    !errorIs e .errBadPattern && !isPathError e

/-- Whether an error value is an `errutil.MultiError`
(the type cast `err.(MultiError)` in `errutil.Append`). -/
def GoErr.isMulti : GoErr → Bool
  | .multi _ => true
  | _ => false

/-- The element list of a `MultiError`, and the singleton list for any
other error: this is how `errutil.Append` absorbs one error value. -/
def multiFlatten : GoErr → List GoErr
  | .multi es => es
  | e => [e]

/-- `errutil.Append(err, e)` for one appended error (the chain
filesystem always appends a single non-nil error): the accumulated
error is viewed as a `MultiError` (its own elements if it is one, the
singleton of it if non-nil, empty if nil), the appended error's
elements are added, and the result collapses to nil / the single
element / a `MultiError`. -/
def errutilAppend (err : Option GoErr) (e : GoErr) : Option GoErr :=
  let mErr : List GoErr :=
    match err with
    | some (.multi es) => es
    | some x => [x]
    | none => []
  let mErr := mErr ++ multiFlatten e
  match mErr with
  | [] => none
  | [x] => some x
  | xs => some (.multi xs)

/-- `goErrBeq` is reflexive. -/
theorem goErrBeq_refl : ∀ e : GoErr, goErrBeq e e = true
  | .errNotExist => by simp [goErrBeq]
  | .errPermission => by simp [goErrBeq]
  | .errBadPattern => by simp [goErrBeq]
  | .errInvalid => by simp [goErrBeq]
  | .eof => by simp [goErrBeq]
  | .unexpectedEOF => by simp [goErrBeq]
  | .canceled => by simp [goErrBeq]
  | .deadlineExceeded => by simp [goErrBeq]
  | .checksumMismatch => by simp [goErrBeq]
  | .msg _ => by simp [goErrBeq]
  | .statusCodeErr _ => by simp [goErrBeq]
  | .wrapf t inner => by simp [goErrBeq, goErrBeq_refl inner]
  | .pathError op p inner => by simp [goErrBeq, goErrBeq_refl inner]
  | .multi [] => by simp [goErrBeq]
  | .multi (x :: xs) => by
    simp [goErrBeq, goErrBeq_refl x, goErrBeq_refl (.multi xs)]

/-- `errors.Is(e, e)` holds for every error that is not a bare
`MultiError` (whose identity check Go skips). -/
theorem errorIs_refl (e : GoErr) (h : e.isMulti = false) : errorIs e e = true := by
  cases e <;> simp_all [errorIs, GoErr.isMulti, goErrBeq_refl, goErrBeq]

/-! ## The retry loop (`retry.Try` / `retry.Try2`) and the retry adapter

`retry.Try` runs up to `attempts` iterations; each iteration first
checks `ctx.Err()`, then calls `f`; a `true` result stops the loop
(success), a `false` result leads to a delay (which is cut short when
the context ends) and another iteration.  `retry.Try2` drives `Try`
with a closure that stores `f`'s two results in captured variables and
returns them after `Try` finishes — the zero values if `f` was never
called, the values of the last call otherwise.  `Try2` does NOT
replace the stored error with `ctx.Err()` (unlike `Try2Err`, which the
retry filesystem does not use).

The context is modelled by the index of the `ctx.Err()` check from
which on the context reports itself done (`none` = the context never
ends during the call), together with the error it then reports.  The
closure state of `Try2` is made explicit as the `a`/`b` accumulator
arguments of `try2Loop`, and the loop also counts the calls of `f`.
The negative-`attempts` mode (retry forever) is not modelled; every
claim uses a finite attempt budget. -/

/-- A Go `context.Context`, abstracted to when (at which `ctx.Err()`
check of the running loop) it becomes done, and with which error. -/
structure GoCtx where
  doneFrom : Option Nat
  ctxErr : GoErr

/-- What `ctx.Err()` returns at the `i`-th check. -/
def GoCtx.errAt (ctx : GoCtx) (i : Nat) : Option GoErr :=
  match ctx.doneFrom with
  | none => none
  | some k => if k ≤ i then some ctx.ctxErr else none

/-- The loop of `retry.Try` as driven by `retry.Try2`: `i` is the
iteration counter, `a`/`b` the captured result variables of the `Try2`
closure.  Returns the final `(res1, res2)` pair together with the
number of times `f` was called. -/
def try2Loop (ctx : GoCtx) (f : Nat → α × β × Bool) (attempts : Nat) :
    Nat → α → β → (α × β) × Nat
  | i, a, b =>
    if h : i < attempts then
      if (ctx.errAt i).isSome then ((a, b), i)
      else
        let r := f i
        if r.2.2 then ((r.1, r.2.1), i + 1)
        else try2Loop ctx f attempts (i + 1) r.1 r.2.1
    else ((a, b), i)
termination_by i => attempts - i

/-- `retry.Try2 ctx f attempts delay` (the delay only paces the loop in
real time and does not influence the result, so it is not a parameter
of the model); `a₀`/`b₀` are the zero values of the two result types. -/
def goTry2 (ctx : GoCtx) (f : Nat → α × β × Bool) (attempts : Nat)
    (a₀ : α) (b₀ : β) : α × β :=
  (try2Loop ctx f attempts 0 a₀ b₀).1

/-- The number of calls `retry.Try2` makes to `f`. -/
def goTry2Calls (ctx : GoCtx) (f : Nat → α × β × Bool) (attempts : Nat)
    (a₀ : α) (b₀ : β) : Nat :=
  (try2Loop ctx f attempts 0 a₀ b₀).2

/-- `fmt.Errorf("fsutil.retryFS: %w", err)`. -/
def errRetryFSFn (e : GoErr) : GoErr := .wrapf "fsutil.retryFS" e

/-- The closure the retry filesystem passes to `retry.Try2` for each of
its operations (`Open`, `Glob`, `Stat`, `ReadFile`, `ReadDir` all share
this shape, differing only in the result type `α` and the inner call):
success stops with the value; a non-retryable error stops with the
wrapped error; a retryable error asks for another attempt, also storing
the wrapped error. -/
def retryClosure (inner : Nat → Except GoErr α) (i : Nat) :
    Option α × Option GoErr × Bool :=
  match inner i with
  | .ok v => (some v, none, true)
  | .error e =>
    if !isRetryable e then (none, some (errRetryFSFn e), true)
    else (none, some (errRetryFSFn e), false)

/-- A retry-filesystem operation: `retry.Try2` over `retryClosure`,
with the zero values `nil, nil` (no file/result, no error).  `inner i`
is the result of the `i`-th call of the wrapped filesystem. -/
def retryFSOp (ctx : GoCtx) (inner : Nat → Except GoErr α) (attempts : Nat) :
    Option α × Option GoErr :=
  goTry2 ctx (retryClosure inner) attempts none none

/-- The number of calls a retry-filesystem operation makes to the
wrapped filesystem. -/
def retryFSOpCalls (ctx : GoCtx) (inner : Nat → Except GoErr α) (attempts : Nat) : Nat :=
  goTry2Calls ctx (retryClosure inner) attempts none none

/-- Claim C10: for every retry-wrapped operation, a context that is
already done before the first attempt makes the operation return the
zero result and a nil error — `Open` returns a nil file handle and a
nil error — and the wrapped filesystem is never called. -/
theorem retryFS_precancelled_ctx (ctx : GoCtx) (inner : Nat → Except GoErr α)
    (attempts : Nat) (h : ctx.doneFrom = some 0) :
    retryFSOp ctx inner attempts = (none, none) ∧
      retryFSOpCalls ctx inner attempts = 0 := by
  have herr : (ctx.errAt 0).isSome = true := by
    simp [GoCtx.errAt, h]
  unfold retryFSOp retryFSOpCalls goTry2 goTry2Calls
  rw [try2Loop]
  by_cases hA : 0 < attempts
  · simp [hA, herr]
  · simp [hA]

/-- Witness for `retryFS_precancelled_ctx` at a concrete context,
backend and attempt budget. -/
theorem retryFS_precancelled_ctx_witness :
    retryFSOp ⟨some 0, .canceled⟩ (fun _ => (.ok 42 : Except GoErr Nat)) 3 = (none, none) ∧
      retryFSOpCalls ⟨some 0, .canceled⟩ (fun _ => (.ok 42 : Except GoErr Nat)) 3 = 0 :=
  retryFS_precancelled_ctx ⟨some 0, .canceled⟩ (fun _ => .ok 42) 3 rfl

/-- One failing, retryable step of the loop: if attempt `i` is inside
the budget, the context is not yet done at check `i`, and the inner
call `i` fails with a retryable error, the loop state advances. -/
theorem try2Loop_retry_step (ctx : GoCtx) (inner : Nat → Except GoErr α)
    (attempts i : Nat) (a : Option α) (b : Option GoErr) (e : GoErr)
    (hi : i < attempts) (hctx : ctx.errAt i = none)
    (he : inner i = .error e) (hr : isRetryable e = true) :
    try2Loop ctx (retryClosure inner) attempts i a b =
      try2Loop ctx (retryClosure inner) attempts (i + 1) none (some (errRetryFSFn e)) := by
  rw [try2Loop]
  simp [hi, hctx, retryClosure, he, hr]

/-- The loop stops without calling `f` when the context is done at the
current check, or when the budget is reached. -/
theorem try2Loop_stop (ctx : GoCtx) (f : Nat → α × β × Bool)
    (attempts m : Nat) (a : α) (b : β)
    (hstop : ctx.errAt m ≠ none ∨ m = attempts) (hm : m ≤ attempts) :
    try2Loop ctx f attempts m a b = ((a, b), m) := by
  have hmm := hm
  rw [try2Loop]
  by_cases hA : m < attempts
  · have hne : ctx.errAt m ≠ none := by
      rcases hstop with h | h
      · exact h
      · omega
    have : (ctx.errAt m).isSome = true := by
      cases hcase : ctx.errAt m with
      | none => exact absurd hcase hne
      | some e => rfl
    simp [hA, this]
  · simp [hA]

/-- A run of failing retryable attempts `i, i+1, …, m-1` that then
stops (either the context is done at check `m` or the budget `m =
attempts` is reached) ends with the wrapped error of attempt `m-1` and
leaves the loop counter at `m`. -/
theorem try2Loop_fail_run (ctx : GoCtx) (inner : Nat → Except GoErr α)
    (attempts m : Nat)
    (hstop : ctx.errAt m ≠ none ∨ m = attempts)
    (hm : m ≤ attempts)
    (hctx : ∀ j, j < m → ctx.errAt j = none)
    (hfail : ∀ j, j < m → ∃ e, inner j = .error e ∧ isRetryable e = true) :
    ∀ i a b, i < m →
      ∃ e, inner (m - 1) = .error e ∧
        try2Loop ctx (retryClosure inner) attempts i a b =
          ((none, some (errRetryFSFn e)), m) := by
  have key : ∀ d i (a : Option α) (b : Option GoErr), m - i = d → i < m →
      ∃ e, inner (m - 1) = .error e ∧
        try2Loop ctx (retryClosure inner) attempts i a b =
          ((none, some (errRetryFSFn e)), m) := by
    intro d
    induction d with
    | zero => intro i a b hd hi; omega
    | succ d ih =>
      intro i a b hd hi
      obtain ⟨e, he, hr⟩ := hfail i hi
      rw [try2Loop_retry_step ctx inner attempts i a b e
        (lt_of_lt_of_le hi hm) (hctx i hi) he hr]
      by_cases h2 : i + 1 < m
      · exact ih (i + 1) none (some (errRetryFSFn e)) (by omega) h2
      · have hi1 : i + 1 = m := by omega
        refine ⟨e, by rwa [show m - 1 = i by omega], ?_⟩
        rw [hi1, try2Loop_stop ctx _ attempts m _ _ hstop hm]
  intro i a b hi
  exact key (m - i) i a b rfl hi

/-- Claim C2 counterexample: the concrete backend that always fails
with its own error `"backend failure"`, wrapped in Retry with attempts
= 3 under a context whose deadline passes right after the first failing
attempt.  The claim says the operation returns the context's
deadline-exceeded error; the code returns the backend's own last error
(wrapped), which does not match `context.DeadlineExceeded`. -/
theorem retryFS_ctx_cancel_cex :
    retryFSOp ⟨some 1, .deadlineExceeded⟩
        (fun _ => (.error (.msg "backend failure") : Except GoErr Nat)) 3 =
      (none, some (errRetryFSFn (.msg "backend failure"))) ∧
    errorIs (errRetryFSFn (.msg "backend failure")) .deadlineExceeded = false ∧
    errorIs (errRetryFSFn (.msg "backend failure")) (.msg "backend failure") = true := by
  refine ⟨?_, ?_, ?_⟩
  · unfold retryFSOp goTry2
    rw [try2Loop_retry_step _ _ 3 0 none none (.msg "backend failure")
        (by omega) (by simp [GoCtx.errAt]) rfl
        (by simp [isRetryable, errorIs, goErrBeq, isPathError]),
      try2Loop_stop _ _ 3 1 _ _ (Or.inl (by simp [GoCtx.errAt])) (by omega)]
  · simp [errorIs, goErrBeq, errRetryFSFn]
  · simp [errorIs, goErrBeq, errRetryFSFn]

/-- Claim C2 (amended): for a retry-wrapped operation whose context
becomes done at check `k` with `1 ≤ k` while every attempt before then
fails with a retryable error, the operation returns the wrapped last
inner error — this covers both the context ending mid-retry (`k` below
the budget) and the budget being exhausted first (`k` at or above it);
the context's own cancellation/deadline error is never substituted (the
retry filesystem uses `retry.Try2`, not `retry.Try2Err`).  The number
of inner calls is `min k attempts`. -/
theorem retryFS_ctx_cancel_amended (ctx : GoCtx) (inner : Nat → Except GoErr α)
    (attempts k : Nat) (hk : ctx.doneFrom = some k)
    (hpos : 1 ≤ min k attempts)
    (hfail : ∀ j, j < min k attempts →
      ∃ e, inner j = .error e ∧ isRetryable e = true) :
    ∃ e, inner (min k attempts - 1) = .error e ∧
      retryFSOp ctx inner attempts = (none, some (errRetryFSFn e)) ∧
      retryFSOpCalls ctx inner attempts = min k attempts := by
  set m := min k attempts with hmdef
  have hm : m ≤ attempts := Nat.min_le_right _ _
  have hctx : ∀ j, j < m → ctx.errAt j = none := by
    intro j hj
    have : j < k := lt_of_lt_of_le hj (Nat.min_le_left _ _)
    simp only [GoCtx.errAt, hk]
    simp [Nat.not_le.mpr this]
  have hstop : ctx.errAt m ≠ none ∨ m = attempts := by
    by_cases hc : m = attempts
    · exact Or.inr hc
    · left
      have hkm : k = m := by omega
      simp [GoCtx.errAt, hk, hkm]
  obtain ⟨e, he, hrun⟩ := try2Loop_fail_run ctx inner attempts m hstop hm hctx hfail
    0 none none (by omega)
  exact ⟨e, he, by
    constructor
    · unfold retryFSOp goTry2; rw [hrun]
    · unfold retryFSOpCalls goTry2Calls; rw [hrun]⟩

/-- Witness for `retryFS_ctx_cancel_amended`: a deadline that passes
after the second failing attempt, with a budget of 3. -/
theorem retryFS_ctx_cancel_amended_witness :
    ∃ e, (fun _ => (.error (.msg "flaky") : Except GoErr Nat)) (min 2 3 - 1) = .error e ∧
      retryFSOp ⟨some 2, .deadlineExceeded⟩
          (fun _ => (.error (.msg "flaky") : Except GoErr Nat)) 3 =
        (none, some (errRetryFSFn e)) ∧
      retryFSOpCalls ⟨some 2, .deadlineExceeded⟩
          (fun _ => (.error (.msg "flaky") : Except GoErr Nat)) 3 = min 2 3 :=
  retryFS_ctx_cancel_amended ⟨some 2, .deadlineExceeded⟩
    (fun _ => .error (.msg "flaky")) 3 2 rfl (by decide)
    (fun j _ => ⟨.msg "flaky", rfl, by simp [isRetryable, errorIs, goErrBeq, isPathError]⟩)

/-- Claim C4: with an attempt budget of 3 and a live context, a
permanent first error (not-exist, permission-denied, bad glob pattern
or `fs.PathError`, i.e. any non-retryable error) stops the operation
after exactly one inner call; a backend failing twice with retryable
errors and then succeeding is called exactly 3 times and the operation
succeeds; a backend failing three times with retryable errors is called
exactly 3 times and the operation returns the wrapped last error. -/
theorem retryFS_attempt_budget (ctx : GoCtx) (inner : Nat → Except GoErr α)
    (hlive : ctx.doneFrom = none) :
    (∀ e, inner 0 = .error e → isRetryable e = false →
      retryFSOp ctx inner 3 = (none, some (errRetryFSFn e)) ∧
        retryFSOpCalls ctx inner 3 = 1) ∧
    (∀ e₀ e₁ v, inner 0 = .error e₀ → isRetryable e₀ = true →
      inner 1 = .error e₁ → isRetryable e₁ = true → inner 2 = .ok v →
      retryFSOp ctx inner 3 = (some v, none) ∧
        retryFSOpCalls ctx inner 3 = 3) ∧
    (∀ e₀ e₁ e₂, inner 0 = .error e₀ → isRetryable e₀ = true →
      inner 1 = .error e₁ → isRetryable e₁ = true →
      inner 2 = .error e₂ → isRetryable e₂ = true →
      retryFSOp ctx inner 3 = (none, some (errRetryFSFn e₂)) ∧
        retryFSOpCalls ctx inner 3 = 3) := by
  have herr : ∀ i, ctx.errAt i = none := by
    intro i; simp [GoCtx.errAt, hlive]
  refine ⟨?_, ?_, ?_⟩
  · intro e he hperm
    unfold retryFSOp retryFSOpCalls goTry2 goTry2Calls
    rw [try2Loop]
    simp [herr, retryClosure, he, hperm]
  · intro e₀ e₁ v h0 h0r h1 h1r h2
    unfold retryFSOp retryFSOpCalls goTry2 goTry2Calls
    rw [try2Loop_retry_step ctx inner 3 0 _ _ e₀ (by omega) (herr 0) h0 h0r,
      try2Loop_retry_step ctx inner 3 1 _ _ e₁ (by omega) (herr 1) h1 h1r,
      try2Loop]
    simp [herr, retryClosure, h2]
  · intro e₀ e₁ e₂ h0 h0r h1 h1r h2 h2r
    unfold retryFSOp retryFSOpCalls goTry2 goTry2Calls
    rw [try2Loop_retry_step ctx inner 3 0 _ _ e₀ (by omega) (herr 0) h0 h0r,
      try2Loop_retry_step ctx inner 3 1 _ _ e₁ (by omega) (herr 1) h1 h1r,
      try2Loop_retry_step ctx inner 3 2 _ _ e₂ (by omega) (herr 2) h2 h2r,
      try2Loop_stop ctx _ 3 3 _ _ (Or.inr rfl) (le_refl 3)]
    exact ⟨rfl, rfl⟩

/-- A concrete backend for the C4 witness: fails `n` times with the
given error, then serves the value 7. -/
def failThen (n : Nat) (e : GoErr) : Nat → Except GoErr Nat :=
  fun i => if i < n then .error e else .ok 7

/-- Witness for `retryFS_attempt_budget`: a not-found error
short-circuits (1 call); `failThen 2` succeeds after 3 calls;
`failThen 3` fails after 3 calls. -/
theorem retryFS_attempt_budget_witness :
    (retryFSOp ⟨none, .canceled⟩ (failThen 9 (.pathError "open" (gs "notexist.txt") .errNotExist)) 3 =
        (none, some (errRetryFSFn (.pathError "open" (gs "notexist.txt") .errNotExist))) ∧
      retryFSOpCalls ⟨none, .canceled⟩ (failThen 9 (.pathError "open" (gs "notexist.txt") .errNotExist)) 3 = 1) ∧
    (retryFSOp ⟨none, .canceled⟩ (failThen 2 (.msg "transient")) 3 = (some 7, none) ∧
      retryFSOpCalls ⟨none, .canceled⟩ (failThen 2 (.msg "transient")) 3 = 3) ∧
    (retryFSOp ⟨none, .canceled⟩ (failThen 3 (.msg "permanent")) 3 =
        (none, some (errRetryFSFn (.msg "permanent"))) ∧
      retryFSOpCalls ⟨none, .canceled⟩ (failThen 3 (.msg "permanent")) 3 = 3) := by
  refine ⟨?_, ?_, ?_⟩
  · exact (retryFS_attempt_budget ⟨none, .canceled⟩ _ rfl).1 _ rfl
      (by simp [isRetryable, errorIs, goErrBeq, isPathError])
  · exact (retryFS_attempt_budget ⟨none, .canceled⟩ _ rfl).2.1 _ _ 7 rfl
      (by simp [isRetryable, errorIs, goErrBeq, isPathError]) rfl
      (by simp [isRetryable, errorIs, goErrBeq, isPathError]) rfl
  · exact (retryFS_attempt_budget ⟨none, .canceled⟩ _ rfl).2.2 _ _ _ rfl
      (by simp [isRetryable, errorIs, goErrBeq, isPathError]) rfl
      (by simp [isRetryable, errorIs, goErrBeq, isPathError]) rfl
      (by simp [isRetryable, errorIs, goErrBeq, isPathError])

/-! ## `sliceutil`: sorted unique insertion

`sliceutil.AppendUniqueSort` inserts each new element into an already
sorted slice at the position found by `slices.BinarySearch`, skipping
elements that are already present; `AppendUniqueSortFunc` does the same
with a caller-supplied comparison function (`slices.BinarySearchFunc`).
`sortSearch` is the binary search loop of the `slices` package
(`i, j := 0, n; for i < j { h := (i+j)/2; ... }`). -/

/-- The binary-search loop of Go's `slices` package: the smallest index
in `[0, n)` at which `f` flips to `true` (assuming `f` monotone), or
`n`. -/
def sortSearch (n : Nat) (f : Nat → Bool) : Nat := go 0 n
where
  go (i j : Nat) : Nat :=
    if _h : i < j then
      if f ((i + j) / 2) then go i ((i + j) / 2) else go ((i + j) / 2 + 1) j
    else i
  termination_by j - i
  decreasing_by all_goals omega

/-- Characterization of the binary-search loop for a monotone
predicate: the result is in `[i, j]`, everything in `[i, result)` is
`false`, and the result itself is `true` when below `j`. -/
theorem sortSearch_go_spec (f : Nat → Bool)
    (mono : ∀ i j, i ≤ j → f i = true → f j = true) :
    ∀ d i j, j - i = d → i ≤ j →
      i ≤ sortSearch.go f i j ∧ sortSearch.go f i j ≤ j ∧
        (sortSearch.go f i j < j → f (sortSearch.go f i j) = true) ∧
        (∀ k, i ≤ k → k < sortSearch.go f i j → f k = false) := by
  intro d
  induction d using Nat.strong_induction_on with
  | _ d ih =>
    intro i j hd hij
    rw [sortSearch.go]
    by_cases h : i < j
    · rw [dif_pos h]
      by_cases hf : f ((i + j) / 2) = true
      · rw [if_pos hf]
        obtain ⟨h1, h2, h3, h4⟩ :=
          ih ((i + j) / 2 - i) (by omega) i ((i + j) / 2) rfl (by omega)
        refine ⟨h1, by omega, ?_, h4⟩
        intro _
        by_cases he : sortSearch.go f i ((i + j) / 2) < (i + j) / 2
        · exact h3 he
        · have heq : sortSearch.go f i ((i + j) / 2) = (i + j) / 2 := by omega
          rw [heq]; exact hf
      · rw [if_neg hf]
        obtain ⟨h1, h2, h3, h4⟩ :=
          ih (j - ((i + j) / 2 + 1)) (by omega) ((i + j) / 2 + 1) j rfl (by omega)
        refine ⟨by omega, h2, h3, ?_⟩
        intro k hk hk2
        by_cases hkm : (i + j) / 2 + 1 ≤ k
        · exact h4 k hkm hk2
        · cases hfk : f k with
          | false => rfl
          | true => exact absurd (mono k ((i + j) / 2) (by omega) hfk) hf
    · rw [dif_neg h]
      exact ⟨le_refl i, hij, fun hc => absurd hc h,
        fun k hk1 hk2 => absurd (lt_of_le_of_lt hk1 hk2) (lt_irrefl i)⟩

/-- Top-level characterization of `sortSearch` for a monotone
predicate. -/
theorem sortSearch_spec (n : Nat) (f : Nat → Bool)
    (mono : ∀ i j, i ≤ j → f i = true → f j = true) :
    sortSearch n f ≤ n ∧ (sortSearch n f < n → f (sortSearch n f) = true) ∧
      (∀ k, k < sortSearch n f → f k = false) := by
  have := sortSearch_go_spec f mono n 0 n rfl (by omega)
  exact ⟨this.2.1, this.2.2.1, fun k hk => this.2.2.2 k (by omega) hk⟩

/-- The insertion position computed by `slices.BinarySearch`: the first
index whose element is not below `v` (`!cmp.Less(x[h], target)` in the
Go source).  Out-of-range accesses never occur in the loop; the model
pads with `v` itself. -/
def bsearchPos [LinearOrder α] (s : List α) (v : α) : Nat :=
  sortSearch s.length (fun i => !decide (s.getD i v < v))

/-- `slices.BinarySearch`: the insertion position, and whether the
element at that position equals the target. -/
def sliceBinarySearch [LinearOrder α] (s : List α) (v : α) : Nat × Bool :=
  if bsearchPos s v < s.length then
    if s.getD (bsearchPos s v) v = v then (bsearchPos s v, true)
    else (bsearchPos s v, false)
  else (bsearchPos s v, false)

/-- The position computed by `slices.BinarySearchFunc`: the first index
whose element compares `≥ 0` against the target. -/
def bsearchFuncPos (cmp : α → α → Int) (s : List α) (v : α) : Nat :=
  sortSearch s.length (fun i => decide (0 ≤ cmp (s.getD i v) v))

/-- `slices.BinarySearchFunc` with comparison function `cmp`. -/
def sliceBinarySearchFunc (cmp : α → α → Int) (s : List α) (v : α) : Nat × Bool :=
  if bsearchFuncPos cmp s v < s.length then
    if cmp (s.getD (bsearchFuncPos cmp s v) v) v = 0 then (bsearchFuncPos cmp s v, true)
    else (bsearchFuncPos cmp s v, false)
  else (bsearchFuncPos cmp s v, false)

/-- `slices.Insert(s, idx, v)` for a single element. -/
def sliceInsert (s : List α) (idx : Nat) (v : α) : List α :=
  s.take idx ++ v :: s.drop idx

/-- `sliceutil.AppendUniqueSort`: insert each element of `vs` into the
sorted slice `s` unless already present. -/
def sliceAppendUniqueSort [LinearOrder α] (s : List α) : List α → List α
  | [] => s
  | v :: rest =>
    sliceAppendUniqueSort
      (if (sliceBinarySearch s v).2 then s
       else sliceInsert s (sliceBinarySearch s v).1 v) rest

/-- `sliceutil.AppendUniqueSortFunc`: the same with a comparison
function. -/
def sliceAppendUniqueSortFunc (cmp : α → α → Int) (s : List α) : List α → List α
  | [] => s
  | v :: rest =>
    sliceAppendUniqueSortFunc cmp
      (if (sliceBinarySearchFunc cmp s v).2 then s
       else sliceInsert s (sliceBinarySearchFunc cmp s v).1 v) rest

/-- The integer comparison induced by a linear order; it models Go's
`strings.Compare` for the chain filesystem's directory-entry names
(both compare bytewise, and UTF-8 byte order agrees with the code-point
order). -/
def ordCmpInt [LinearOrder α] (a b : α) : Int :=
  if a < b then -1 else if b < a then 1 else 0

/-- `ordCmpInt` is zero exactly on equal elements. -/
theorem ordCmpInt_eq_zero [LinearOrder α] (a b : α) :
    ordCmpInt a b = 0 ↔ a = b := by
  unfold ordCmpInt
  rcases lt_trichotomy a b with h | h | h
  · rw [if_pos h]
    exact ⟨fun hc => absurd hc (by decide),
      fun hc => absurd (hc ▸ h) (lt_irrefl b)⟩
  · subst h
    rw [if_neg (lt_irrefl a), if_neg (lt_irrefl a)]
    simp
  · rw [if_neg (asymm h), if_pos h]
    exact ⟨fun hc => absurd hc (by decide),
      fun hc => absurd (hc ▸ h) (lt_irrefl b)⟩

/-- `ordCmpInt` is nonnegative exactly when the first element is not
below the second. -/
theorem ordCmpInt_nonneg [LinearOrder α] (a b : α) :
    (0 ≤ ordCmpInt a b) ↔ ¬ a < b := by
  unfold ordCmpInt
  by_cases h : a < b
  · rw [if_pos h]
    exact ⟨fun hc => absurd hc (by decide), fun hc => absurd h hc⟩
  · rw [if_neg h]
    by_cases h2 : b < a
    · rw [if_pos h2]; exact ⟨fun _ => h, fun _ => by decide⟩
    · rw [if_neg h2]; exact ⟨fun _ => h, fun _ => by decide⟩

/-- `slices.BinarySearchFunc` with the order's comparison coincides
with `slices.BinarySearch`. -/
theorem sliceBinarySearchFunc_ordCmpInt [LinearOrder α] (s : List α) (v : α) :
    sliceBinarySearchFunc ordCmpInt s v = sliceBinarySearch s v := by
  have hpos : bsearchFuncPos ordCmpInt s v = bsearchPos s v := by
    unfold bsearchFuncPos bsearchPos
    congr 1
    funext i
    by_cases h : s.getD i v < v
    · rw [decide_eq_false ((not_iff_not.mpr (ordCmpInt_nonneg _ _)).mpr
        (not_not_intro h)), decide_eq_true h]
      rfl
    · rw [decide_eq_true ((ordCmpInt_nonneg _ _).mpr h), decide_eq_false h]
      rfl
  unfold sliceBinarySearchFunc sliceBinarySearch
  rw [hpos]
  by_cases hlt : bsearchPos s v < s.length
  · rw [if_pos hlt, if_pos hlt]
    by_cases he : s.getD (bsearchPos s v) v = v
    · rw [if_pos he, if_pos ((ordCmpInt_eq_zero _ _).mpr he)]
    · rw [if_neg he, if_neg (fun hc => he ((ordCmpInt_eq_zero _ _).mp hc))]
  · rw [if_neg hlt, if_neg hlt]

/-- `AppendUniqueSortFunc` with the order's comparison coincides with
`AppendUniqueSort`. -/
theorem sliceAppendUniqueSortFunc_ordCmpInt [LinearOrder α] (s : List α) (vs : List α) :
    sliceAppendUniqueSortFunc ordCmpInt s vs = sliceAppendUniqueSort s vs := by
  induction vs generalizing s with
  | nil => rfl
  | cons v rest ih =>
    unfold sliceAppendUniqueSortFunc sliceAppendUniqueSort
    rw [sliceBinarySearchFunc_ordCmpInt]
    exact ih _

/-- Monotone access into a sorted list via `getD`. -/
theorem sorted_getD_le [LinearOrder α] (s : List α) (hs : List.Sorted (· < ·) s)
    (i j : Nat) (hij : i ≤ j) (hj : j < s.length) (d : α) :
    s.getD i d ≤ s.getD j d := by
  rcases Nat.eq_or_lt_of_le hij with h | h
  · subst h; exact le_refl _
  · have hi : i < s.length := lt_trans h hj
    rw [List.getD_eq_getElem s d hi, List.getD_eq_getElem s d hj]
    have := List.pairwise_iff_get.mp hs ⟨i, hi⟩ ⟨j, hj⟩ h
    simp only [List.get_eq_getElem] at this
    exact le_of_lt this

/-- The binary-search position on a sorted list: everything before it
is below `v`, everything from it on is not. -/
theorem bsearchPos_spec [LinearOrder α] (s : List α) (v : α)
    (hs : List.Sorted (· < ·) s) :
    bsearchPos s v ≤ s.length ∧
      (∀ k, k < bsearchPos s v → s.getD k v < v) ∧
      (bsearchPos s v < s.length → v ≤ s.getD (bsearchPos s v) v) := by
  have mono : ∀ i j, i ≤ j → (!decide (s.getD i v < v)) = true →
      (!decide (s.getD j v < v)) = true := by
    intro i j hij hi
    by_cases hj : j < s.length
    · rw [Bool.not_eq_true', decide_eq_false_iff_not] at hi ⊢
      intro hc
      exact hi (lt_of_le_of_lt (sorted_getD_le s hs i j hij hj v) hc)
    · rw [List.getD_eq_default s v (by omega)]
      simp
  obtain ⟨h1, h2, h3⟩ := sortSearch_spec s.length _ mono
  refine ⟨h1, ?_, ?_⟩
  · intro k hk
    have := h3 k hk
    simpa using this
  · intro hlt
    have := h2 hlt
    rw [Bool.not_eq_true', decide_eq_false_iff_not] at this
    exact le_of_not_lt this

/-- What `slices.BinarySearch` + `slices.Insert` do on a sorted list:
a hit means the element is present (and the slice is left unchanged by
`AppendUniqueSort`); a miss means it is absent and inserting at the
returned position keeps the list sorted while adding exactly the new
element. -/
theorem sliceBinarySearch_insert_spec [LinearOrder α] (s : List α) (v : α)
    (hs : List.Sorted (· < ·) s) :
    ((sliceBinarySearch s v).2 = true → v ∈ s) ∧
    ((sliceBinarySearch s v).2 = false →
      v ∉ s ∧
      List.Sorted (· < ·) (sliceInsert s (sliceBinarySearch s v).1 v) ∧
      (∀ x, x ∈ sliceInsert s (sliceBinarySearch s v).1 v ↔ x = v ∨ x ∈ s)) := by
  obtain ⟨hle, hbelow, habove⟩ := bsearchPos_spec s v hs
  have hfst : (sliceBinarySearch s v).1 = bsearchPos s v := by
    unfold sliceBinarySearch
    by_cases h1 : bsearchPos s v < s.length
    · rw [if_pos h1]
      by_cases h2 : s.getD (bsearchPos s v) v = v
      · rw [if_pos h2]
      · rw [if_neg h2]
    · rw [if_neg h1]
  constructor
  · intro hfound
    unfold sliceBinarySearch at hfound
    by_cases h1 : bsearchPos s v < s.length
    · rw [if_pos h1] at hfound
      by_cases h2 : s.getD (bsearchPos s v) v = v
      · rw [List.getD_eq_getElem s v h1] at h2
        exact h2 ▸ List.getElem_mem h1
      · rw [if_neg h2] at hfound
        simp at hfound
    · rw [if_neg h1] at hfound
      simp at hfound
  · intro hmiss
    have hne : bsearchPos s v < s.length → s.getD (bsearchPos s v) v ≠ v := by
      intro h1 h2
      unfold sliceBinarySearch at hmiss
      rw [if_pos h1, if_pos h2] at hmiss
      simp at hmiss
    have hnotmem : v ∉ s := by
      intro hv
      obtain ⟨k, hk, hkv⟩ := List.getElem_of_mem hv
      by_cases hkp : k < bsearchPos s v
      · have := hbelow k hkp
        rw [List.getD_eq_getElem s v hk, hkv] at this
        exact absurd this (lt_irrefl v)
      · have hplen : bsearchPos s v < s.length := by omega
        have h1 := habove hplen
        have h2 : s.getD (bsearchPos s v) v ≤ s.getD k v :=
          sorted_getD_le s hs _ k (by omega) hk v
        rw [List.getD_eq_getElem s v hk, hkv] at h2
        exact hne hplen (le_antisymm h2 h1)
    rw [hfst]
    refine ⟨hnotmem, ?_, ?_⟩
    · unfold sliceInsert
      refine List.pairwise_append.mpr
        ⟨List.Pairwise.sublist (List.take_sublist _ _) hs, ?_, ?_⟩
      · refine List.pairwise_cons.mpr
          ⟨?_, List.Pairwise.sublist (List.drop_sublist _ _) hs⟩
        intro y hy
        obtain ⟨i, hi, hiv⟩ := List.getElem_of_mem hy
        rw [List.getElem_drop] at hiv
        have hlen : bsearchPos s v + i < s.length := by
          have := List.length_drop (bsearchPos s v) s
          omega
        have hplen : bsearchPos s v < s.length := by omega
        have h1 : v ≤ s.getD (bsearchPos s v) v := habove hplen
        have h2 : s.getD (bsearchPos s v) v ≤ s.getD (bsearchPos s v + i) v :=
          sorted_getD_le s hs _ _ (by omega) hlen v
        have h3 : v ≤ s.getD (bsearchPos s v + i) v := le_trans h1 h2
        rw [List.getD_eq_getElem s v hlen, hiv] at h3
        rcases lt_or_eq_of_le h3 with h4 | h4
        · exact h4
        · exact absurd (h4 ▸ List.drop_subset _ _ hy) hnotmem
      · intro a ha b hb
        obtain ⟨i, hi, hiv⟩ := List.getElem_of_mem ha
        have hilen : i < s.length := by
          have := List.length_take (bsearchPos s v) s
          omega
        have hip : i < bsearchPos s v := by
          have := List.length_take (bsearchPos s v) s
          omega
        have hav : a < v := by
          have := hbelow i hip
          rw [List.getD_eq_getElem s v hilen] at this
          rw [← hiv, List.getElem_take]
          exact this
        rcases List.mem_cons.mp hb with h | h
        · exact h ▸ hav
        · obtain ⟨j, hj, hjv⟩ := List.getElem_of_mem h
          rw [List.getElem_drop] at hjv
          have hjlen : bsearchPos s v + j < s.length := by
            have := List.length_drop (bsearchPos s v) s
            omega
          have hplen : bsearchPos s v < s.length := by omega
          have h1 : v ≤ s.getD (bsearchPos s v) v := habove hplen
          have h2 : s.getD (bsearchPos s v) v ≤ s.getD (bsearchPos s v + j) v :=
            sorted_getD_le s hs _ _ (by omega) hjlen v
          have h3 : v ≤ s.getD (bsearchPos s v + j) v := le_trans h1 h2
          rw [List.getD_eq_getElem s v hjlen, hjv] at h3
          exact lt_of_lt_of_le hav h3
    · intro x
      unfold sliceInsert
      constructor
      · intro hx
        rcases List.mem_append.mp hx with h | h
        · exact Or.inr (List.take_subset _ _ h)
        · rcases List.mem_cons.mp h with h | h
          · exact Or.inl h
          · exact Or.inr (List.drop_subset _ _ h)
      · intro hx
        rcases hx with h | h
        · exact List.mem_append.mpr (Or.inr (List.mem_cons.mpr (Or.inl h)))
        · rw [← List.take_append_drop (bsearchPos s v) s] at h
          rcases List.mem_append.mp h with h | h
          · exact List.mem_append.mpr (Or.inl h)
          · exact List.mem_append.mpr (Or.inr (List.mem_cons.mpr (Or.inr h)))

/-- `AppendUniqueSort` on a sorted slice yields a sorted slice holding
exactly the union of the old elements and the appended ones. -/
theorem sliceAppendUniqueSort_spec [LinearOrder α] (s vs : List α)
    (hs : List.Sorted (· < ·) s) :
    List.Sorted (· < ·) (sliceAppendUniqueSort s vs) ∧
      (∀ x, x ∈ sliceAppendUniqueSort s vs ↔ x ∈ s ∨ x ∈ vs) := by
  induction vs generalizing s with
  | nil => exact ⟨hs, fun x => by simp [sliceAppendUniqueSort]⟩
  | cons v rest ih =>
    obtain ⟨hhit, hmiss⟩ := sliceBinarySearch_insert_spec s v hs
    unfold sliceAppendUniqueSort
    by_cases hfound : (sliceBinarySearch s v).2 = true
    · rw [if_pos hfound]
      obtain ⟨ih1, ih2⟩ := ih s hs
      refine ⟨ih1, fun x => ?_⟩
      rw [ih2 x]
      constructor
      · rintro (h | h)
        · exact Or.inl h
        · exact Or.inr (List.mem_cons.mpr (Or.inr h))
      · rintro (h | h)
        · exact Or.inl h
        · rcases List.mem_cons.mp h with h | h
          · exact Or.inl (h ▸ hhit hfound)
          · exact Or.inr h
    · rw [if_neg hfound]
      obtain ⟨_, hsort, hmem⟩ := hmiss (by
        cases hb : (sliceBinarySearch s v).2
        · rfl
        · exact absurd hb hfound)
      obtain ⟨ih1, ih2⟩ := ih _ hsort
      refine ⟨ih1, fun x => ?_⟩
      rw [ih2 x, hmem x]
      constructor
      · rintro ((h | h) | h)
        · exact Or.inr (List.mem_cons.mpr (Or.inl h))
        · exact Or.inl h
        · exact Or.inr (List.mem_cons.mpr (Or.inr h))
      · rintro (h | h)
        · exact Or.inl (Or.inr h)
        · rcases List.mem_cons.mp h with h | h
          · exact Or.inl (Or.inl h)
          · exact Or.inr h

/-! ## The chain filesystem

`chainFS` holds a sequence of inner filesystems; `iter()` yields their
indices in configuration order (or a random permutation when
`WithChainRandOrder` is set).  The model takes the per-backend results
in the order they are tried: a list `rs` whose `i`-th entry is what the
`i`-th tried filesystem returns for the request.  `Open`, `Stat` and
`ReadFile` share the identical first-success loop (`chainFirstOk`);
`Glob` aborts on the first backend error; `ReadDir` accumulates errors
with `errutil.Append` and fails at the end when any backend failed.
Directory entries are modelled by their names (the chain compares and
deduplicates entries by `strings.Compare` on the names). -/

/-- `errChainFSFn`: `fmt.Errorf("fsutil.chainFS: %w", err)`.  With a
nil error (`chainFS` over an empty filesystem list) `fmt` renders the
`%w` verb as a plain `%!w(<nil>)` message. -/
def errChainFSFn (err : Option GoErr) : GoErr :=
  match err with
  | some e => .wrapf "fsutil.chainFS" e
  | none => .msg "fsutil.chainFS: %!w(<nil>)"

/-- The loop shared by `chainFS.Open`, `chainFS.Stat` and
`chainFS.ReadFile`: return the first success, appending each failure
with `errutil.Append`, and wrap the accumulated error when every
backend failed. -/
def chainFirstOk : List (Except GoErr α) → Option GoErr → Except GoErr α
  | [], err => .error (errChainFSFn err)
  | r :: rest, err =>
    match r with
    | .ok v => .ok v
    | .error e => chainFirstOk rest (errutilAppend err e)

/-- `chainFS.Open` over the per-backend results in trial order. -/
def chainOpen (rs : List (Except GoErr α)) : Except GoErr α :=
  chainFirstOk rs none

/-- `chainFS.Stat` over the per-backend results in trial order. -/
def chainStat (rs : List (Except GoErr α)) : Except GoErr α :=
  chainFirstOk rs none

/-- `chainFS.ReadFile` over the per-backend results in trial order. -/
def chainReadFile (rs : List (Except GoErr α)) : Except GoErr α :=
  chainFirstOk rs none

/-- The loop of `chainFS.Glob`: any backend error aborts immediately
with that error wrapped; otherwise the matches are merged with
`sliceutil.AppendUniqueSort`. -/
def chainGlobLoop [LinearOrder α] :
    List (Except GoErr (List α)) → List α → Except GoErr (List α)
  | [], s => .ok s
  | r :: rest, s =>
    match r with
    | .error e => .error (errChainFSFn (some e))
    | .ok f => chainGlobLoop rest (sliceAppendUniqueSort s f)

/-- `chainFS.Glob` over the per-backend results in trial order. -/
def chainGlob [LinearOrder α] (rs : List (Except GoErr (List α))) :
    Except GoErr (List α) :=
  chainGlobLoop rs []

/-- The loop of `chainFS.ReadDir`: failures are accumulated with
`errutil.Append` and the loop continues; successes are merged with
`sliceutil.AppendUniqueSortFunc` comparing entry names; at the end any
accumulated error makes the whole call fail. -/
def chainReadDirLoop [LinearOrder α] :
    List (Except GoErr (List α)) → List α → Option GoErr → Except GoErr (List α)
  | [], s, err =>
    match err with
    | some e => .error (errChainFSFn (some e))
    | none => .ok s
  | r :: rest, s, err =>
    match r with
    | .error e => chainReadDirLoop rest s (errutilAppend err e)
    | .ok f => chainReadDirLoop rest (sliceAppendUniqueSortFunc ordCmpInt s f) err

/-- `chainFS.ReadDir` over the per-backend results in trial order. -/
def chainReadDir [LinearOrder α] (rs : List (Except GoErr (List α))) :
    Except GoErr (List α) :=
  chainReadDirLoop rs [] none

/-- The errors among a list of per-backend results, in order. -/
def exceptErrs : List (Except GoErr β) → List GoErr
  | [] => []
  | .error e :: rest => e :: exceptErrs rest
  | .ok _ :: rest => exceptErrs rest

/-- How `errutil.Append` accumulates a list of (non-`MultiError`)
errors: none, the single error, or a `MultiError` of all of them. -/
def errAcc : List GoErr → Option GoErr
  | [] => none
  | [e] => some e
  | e :: f :: rest => some (.multi (e :: f :: rest))

/-- `errutil.Append` of one more non-`MultiError` error onto an
accumulator of non-`MultiError` errors. -/
theorem errutilAppend_errAcc (acc : List GoErr) (e : GoErr)
    (hacc : ∀ x ∈ acc, x.isMulti = false) (he : e.isMulti = false) :
    errutilAppend (errAcc acc) e = errAcc (acc ++ [e]) := by
  have hflat : multiFlatten e = [e] := by
    cases e <;> simp_all [multiFlatten, GoErr.isMulti]
  match acc with
  | [] => simp [errAcc, errutilAppend, hflat]
  | [x] =>
    have hx : x.isMulti = false := hacc x (by simp)
    cases x <;> simp_all [errAcc, errutilAppend, multiFlatten, GoErr.isMulti]
  | x :: y :: rest =>
    simp [errAcc, errutilAppend, hflat]

/-- An error carried by a failing backend result appears among the
collected errors. -/
theorem mem_exceptErrs_of_error (rs : List (Except GoErr α)) (e : GoErr)
    (he : .error e ∈ rs) : e ∈ exceptErrs rs := by
  induction rs with
  | nil => cases he
  | cons r rest ih =>
    match r with
    | .ok v =>
      rw [exceptErrs]
      rcases List.mem_cons.mp he with h | h
      · cases h
      · exact ih h
    | .error e2 =>
      rw [exceptErrs]
      rcases List.mem_cons.mp he with h | h
      · rw [Except.error.injEq] at h
        simp [h]
      · simp [ih h]

/-- Membership in an unwrapped `MultiError` implies `errors.Is`. -/
theorem errorIs_multi_of_mem (es : List GoErr) (e : GoErr)
    (hm : e ∈ es) (he : e.isMulti = false) :
    errorIs (.multi es) e = true := by
  induction es with
  | nil => cases hm
  | cons x xs ih =>
    rw [errorIs]
    rcases List.mem_cons.mp hm with h | h
    · subst h
      rw [errorIs_refl e he]
      simp
    · rw [ih h]
      simp

/-- Claim C6 (half 1): with a success at some position and only
failures before it, `Open`, `Stat` and `ReadFile` on the chain return
exactly that first success — regardless of what the later backends
would have returned. -/
theorem chainFirstOk_first_success (rs₁ : List (Except GoErr α)) (v : α)
    (rs₂ : List (Except GoErr α))
    (hfail : ∀ r ∈ rs₁, ∃ e, r = .error e) :
    ∀ err, chainFirstOk (rs₁ ++ .ok v :: rs₂) err = .ok v := by
  induction rs₁ with
  | nil => intro err; rfl
  | cons r rest ih =>
    intro err
    obtain ⟨e, he⟩ := hfail r (by simp)
    subst he
    exact ih (fun r hr => hfail r (by simp [hr])) _

/-- Claim C6 (half 2): when every backend fails (each with an ordinary,
non-`MultiError` error), the chain returns a single wrapped error whose
accumulated value combines all the failures. -/
theorem chainFirstOk_all_fail (rs : List (Except GoErr α))
    (hfail : ∀ r ∈ rs, ∃ e, r = .error e) :
    ∀ acc, (∀ x ∈ acc, x.isMulti = false) →
    (∀ e, .error e ∈ rs → e.isMulti = false) →
    chainFirstOk rs (errAcc acc) = .error (errChainFSFn (errAcc (acc ++ exceptErrs rs))) := by
  induction rs with
  | nil => intro acc _ _; simp [chainFirstOk, exceptErrs]
  | cons r rest ih =>
    intro acc hacc hnm
    obtain ⟨e, he⟩ := hfail r (by simp)
    subst he
    rw [chainFirstOk]
    have he' : e.isMulti = false := hnm e (by simp)
    rw [errutilAppend_errAcc acc e hacc he']
    have := ih (fun r hr => hfail r (by simp [hr])) (acc ++ [e])
      (by intro x hx
          rcases List.mem_append.mp hx with h | h
          · exact hacc x h
          · simp at h; subst h; exact he')
      (fun e2 he2 => hnm e2 (by simp [he2]))
    rw [this]
    simp [exceptErrs]

/-- Claim C6: in default (configuration) order, `Open`, `Stat` and
`ReadFile` on the chain return the first success — a file present in
the first and second backend yields the first backend's content — and
when every backend fails they return one aggregated error that matches
(`errors.Is`) every backend's failure, not just the last one. -/
theorem chainFS_first_success_and_aggregate (rs₁ : List (Except GoErr α)) (v : α)
    (rs₂ : List (Except GoErr α)) (rs : List (Except GoErr α))
    (hfail₁ : ∀ r ∈ rs₁, ∃ e, r = .error e)
    (hfail : ∀ r ∈ rs, ∃ e, r = .error e)
    (hnm : ∀ e, .error e ∈ rs → e.isMulti = false)
    (hne : rs ≠ []) :
    (chainOpen (rs₁ ++ .ok v :: rs₂) = .ok v ∧
      chainStat (rs₁ ++ .ok v :: rs₂) = .ok v ∧
      chainReadFile (rs₁ ++ .ok v :: rs₂) = .ok v) ∧
    (∃ E, chainOpen rs = .error E ∧ chainStat rs = .error E ∧
      chainReadFile rs = .error E ∧
      ∀ e, .error e ∈ rs → errorIs E e = true) := by
  constructor
  · exact ⟨chainFirstOk_first_success rs₁ v rs₂ hfail₁ none,
      chainFirstOk_first_success rs₁ v rs₂ hfail₁ none,
      chainFirstOk_first_success rs₁ v rs₂ hfail₁ none⟩
  · have hrun := chainFirstOk_all_fail rs hfail [] (by simp) hnm
    simp only [List.nil_append] at hrun
    have hex : exceptErrs rs ≠ [] := by
      match rs, hne with
      | r :: rest, _ =>
        obtain ⟨e, he⟩ := hfail r (by simp)
        subst he
        simp [exceptErrs]
    refine ⟨errChainFSFn (errAcc (exceptErrs rs)), hrun, hrun, hrun, ?_⟩
    intro e he
    have hmem : e ∈ exceptErrs rs := mem_exceptErrs_of_error rs e he
    have henm : e.isMulti = false := hnm e he
    match hacccase : exceptErrs rs, hmem with
    | [x], hmem =>
      simp only [List.mem_singleton] at hmem
      subst hmem
      rw [errAcc, errChainFSFn, errorIs]
      rw [errorIs_refl e henm]
      simp
    | x :: y :: zs, hmem =>
      rw [errAcc, errChainFSFn, errorIs]
      rw [errorIs_multi_of_mem _ e hmem henm]
      simp

/-- The two-backend success row for the C6 witness. -/
def c6Oks : List (Except GoErr Nat) := [.ok 1, .ok 2]

/-- The two-backend failure row for the C6 witness. -/
def c6Fails : List (Except GoErr Nat) :=
  [.error (.msg "fs1 miss"), .error (.msg "fs2 miss")]

/-- Witness for `chainFS_first_success_and_aggregate`: two backends
both holding the file (contents 1 and 2) yield the first backend's
content; two failing backends yield one error matching both failures. -/
theorem chainFS_first_success_and_aggregate_witness :
    (chainOpen c6Oks = .ok 1 ∧ chainStat c6Oks = .ok 1 ∧
      chainReadFile c6Oks = .ok 1) ∧
    (∃ E, chainOpen c6Fails = .error E ∧
      chainStat c6Fails = .error E ∧
      chainReadFile c6Fails = .error E ∧
      ∀ e, .error e ∈ c6Fails → errorIs E e = true) :=
  chainFS_first_success_and_aggregate ([] : List (Except GoErr Nat)) 1 [Except.ok 2]
    c6Fails
    (by intro r hr; cases hr)
    (by intro r hr; fin_cases hr <;> exact ⟨_, rfl⟩)
    (by intro e he; fin_cases he <;> rfl)
    (by simp [c6Fails])

/-- Claim C1 counterexample: a chain of two filesystems where the
first succeeds (`ReadDir` returns the entry `5`, `Glob` returns the
match `5`) and the second fails.  The claim says a miss on one inner
filesystem is not fatal when another succeeds; the code makes both
`ReadDir` and `Glob` fail. -/
theorem chainFS_dir_ops_partial_failure_cex :
    chainReadDir [Except.ok [5], Except.error (.msg "backend failure")] =
      (.error (errChainFSFn (some (.msg "backend failure"))) : Except GoErr (List Nat)) ∧
    chainGlob [Except.ok [5], Except.error (.msg "backend failure")] =
      (.error (errChainFSFn (some (.msg "backend failure"))) : Except GoErr (List Nat)) := by
  constructor
  · simp [chainReadDir, chainReadDirLoop, sliceAppendUniqueSortFunc,
      sliceBinarySearchFunc, bsearchFuncPos, sortSearch, sortSearch.go,
      sliceInsert, errutilAppend, multiFlatten, errChainFSFn]
  · simp [chainGlob, chainGlobLoop, sliceAppendUniqueSort,
      sliceBinarySearch, bsearchPos, sortSearch, sortSearch.go,
      sliceInsert, errChainFSFn]

/-- The all-success run of the `Glob` loop: the result extends the
accumulator by the union of all backend matches and stays sorted. -/
theorem chainGlobLoop_all_ok [LinearOrder α] :
    ∀ (rs : List (Except GoErr (List α))) (s : List α),
    (∀ r ∈ rs, ∃ l, r = .ok l) → List.Sorted (· < ·) s →
    ∃ L, chainGlobLoop rs s = .ok L ∧ List.Sorted (· < ·) L ∧
      (∀ x, x ∈ L ↔ x ∈ s ∨ ∃ l, .ok l ∈ rs ∧ x ∈ l) := by
  intro rs
  induction rs with
  | nil =>
    intro s _ hs
    exact ⟨s, rfl, hs, fun x => by simp [chainGlobLoop]⟩
  | cons r rest ih =>
    intro s hok hs
    obtain ⟨l, hl⟩ := hok r (by simp)
    subst hl
    rw [chainGlobLoop]
    obtain ⟨hsort, hmem⟩ := sliceAppendUniqueSort_spec s l hs
    obtain ⟨L, hL, hLs, hLm⟩ := ih (sliceAppendUniqueSort s l)
      (fun r hr => hok r (by simp [hr])) hsort
    refine ⟨L, hL, hLs, fun x => ?_⟩
    rw [hLm x]
    constructor
    · rintro (h | ⟨l2, hl2, hx⟩)
      · rcases (hmem x).mp h with h | h
        · exact Or.inl h
        · exact Or.inr ⟨l, by simp, h⟩
      · exact Or.inr ⟨l2, by simp [hl2], hx⟩
    · rintro (h | ⟨l2, hl2, hx⟩)
      · exact Or.inl ((hmem x).mpr (Or.inl h))
      · rcases List.mem_cons.mp hl2 with h | h
        · rw [Except.ok.injEq] at h
          exact Or.inl ((hmem x).mpr (Or.inr (h ▸ hx)))
        · exact Or.inr ⟨l2, h, hx⟩

/-- With only successes the `ReadDir` loop (with an empty error
accumulator) computes the same merge as the `Glob` loop. -/
theorem chainReadDirLoop_all_ok [LinearOrder α] :
    ∀ (rs : List (Except GoErr (List α))) (s : List α),
    (∀ r ∈ rs, ∃ l, r = .ok l) →
    chainReadDirLoop rs s none = chainGlobLoop rs s := by
  intro rs
  induction rs with
  | nil => intro s _; rfl
  | cons r rest ih =>
    intro s hok
    obtain ⟨l, hl⟩ := hok r (by simp)
    subst hl
    rw [chainReadDirLoop, chainGlobLoop,
      sliceAppendUniqueSortFunc_ordCmpInt]
    exact ih _ (fun r hr => hok r (by simp [hr]))

/-- The `Glob` loop aborts at the first backend failure. -/
theorem chainGlobLoop_first_error [LinearOrder α] (e : GoErr)
    (rs₂ : List (Except GoErr (List α))) :
    ∀ (rs₁ : List (Except GoErr (List α))) (s : List α),
    (∀ r ∈ rs₁, ∃ l, r = .ok l) →
    chainGlobLoop (rs₁ ++ .error e :: rs₂) s = .error (errChainFSFn (some e)) := by
  intro rs₁
  induction rs₁ with
  | nil => intro s _; rfl
  | cons r rest ih =>
    intro s hok
    obtain ⟨l, hl⟩ := hok r (by simp)
    subst hl
    rw [List.cons_append, chainGlobLoop]
    exact ih _ (fun r hr => hok r (by simp [hr]))

/-- The `ReadDir` loop with a failing backend somewhere: the
accumulated errors are wrapped into the final error. -/
theorem chainReadDirLoop_err [LinearOrder α] :
    ∀ (rs : List (Except GoErr (List α))) (s : List α) (acc : List GoErr),
    (∀ x ∈ acc, x.isMulti = false) →
    (∀ x, .error x ∈ rs → x.isMulti = false) →
    (acc ≠ [] ∨ exceptErrs rs ≠ []) →
    chainReadDirLoop rs s (errAcc acc) =
      .error (errChainFSFn (errAcc (acc ++ exceptErrs rs))) := by
  intro rs
  induction rs with
  | nil =>
    intro s acc hacc _ hne
    rcases hne with h | h
    · rw [show exceptErrs ([] : List (Except GoErr (List α))) = [] from rfl,
        List.append_nil]
      match acc, h with
      | [e], _ => rfl
      | e :: f :: rest, _ => rfl
    · exact absurd rfl h
  | cons r rest ih =>
    intro s acc hacc hnm hne
    match r with
    | .error e2 =>
      rw [chainReadDirLoop]
      have he2 : e2.isMulti = false := hnm e2 (by simp)
      rw [errutilAppend_errAcc acc e2 hacc he2]
      rw [ih s (acc ++ [e2])
        (by intro x hx
            rcases List.mem_append.mp hx with h | h
            · exact hacc x h
            · simp at h; subst h; exact he2)
        (fun x hx => hnm x (by simp [hx]))
        (Or.inl (by simp))]
      rw [show exceptErrs (Except.error e2 :: rest) = e2 :: exceptErrs rest from rfl]
      rw [List.append_assoc]
      rfl
    | .ok f =>
      rw [chainReadDirLoop]
      rw [ih _ acc hacc (fun x hx => hnm x (by simp [hx]))
        (by rcases hne with h | h
            · exact Or.inl h
            · exact Or.inr (by rwa [show exceptErrs (Except.ok f :: rest) =
                exceptErrs rest from rfl] at h))]
      rw [show exceptErrs (Except.ok f :: rest) = exceptErrs rest from rfl]

/-- The wrapped accumulated error of a nonempty error list matches
each of its (non-`MultiError`) members. -/
theorem errorIs_errChainFSFn_errAcc (es : List GoErr) (e : GoErr)
    (hm : e ∈ es) (he : e.isMulti = false) :
    errorIs (errChainFSFn (errAcc es)) e = true := by
  match es, hm with
  | [x], hm =>
    simp only [List.mem_singleton] at hm
    subst hm
    rw [errAcc, errChainFSFn, errorIs, errorIs_refl e he]
    simp
  | x :: y :: zs, hm =>
    rw [errAcc, errChainFSFn, errorIs, errorIs_multi_of_mem _ e hm he]
    simp

/-- Claim C1 (amended): when every inner filesystem succeeds, `Glob`
and `ReadDir` on the chain both return the deduplicated, sorted union
of all inner results; but an error from one inner filesystem is fatal
even while another succeeds — `Glob` fails with the first failing
backend's error (wrapped), and `ReadDir` merges all results yet fails
at the end with an error combining every backend failure. -/
theorem chainFS_dir_ops_amended [LinearOrder α]
    (rsa : List (Except GoErr (List α)))
    (rs₁ : List (Except GoErr (List α))) (e : GoErr)
    (rs₂ : List (Except GoErr (List α)))
    (rsc : List (Except GoErr (List α))) :
    ((∀ r ∈ rsa, ∃ l, r = .ok l) →
      ∃ L, chainGlob rsa = .ok L ∧ chainReadDir rsa = .ok L ∧
        List.Sorted (· < ·) L ∧
        (∀ x, x ∈ L ↔ ∃ l, .ok l ∈ rsa ∧ x ∈ l)) ∧
    ((∀ r ∈ rs₁, ∃ l, r = .ok l) →
      chainGlob (rs₁ ++ .error e :: rs₂) = .error (errChainFSFn (some e))) ∧
    ((∃ x, .error x ∈ rsc) → (∀ x, .error x ∈ rsc → x.isMulti = false) →
      ∃ E, chainReadDir rsc = .error E ∧
        ∀ x, .error x ∈ rsc → errorIs E x = true) := by
  refine ⟨?_, ?_, ?_⟩
  · intro hok
    obtain ⟨L, hL, hLs, hLm⟩ := chainGlobLoop_all_ok rsa [] hok
      (List.sorted_nil)
    refine ⟨L, hL, ?_, hLs, fun x => ?_⟩
    · unfold chainReadDir
      rw [chainReadDirLoop_all_ok rsa [] hok]
      exact hL
    · rw [hLm x]
      simp
  · intro hok
    exact chainGlobLoop_first_error e rs₂ rs₁ [] hok
  · rintro ⟨x0, hx0⟩ hnm
    have hne : exceptErrs rsc ≠ [] :=
      List.ne_nil_of_mem (mem_exceptErrs_of_error rsc x0 hx0)
    refine ⟨errChainFSFn (errAcc (exceptErrs rsc)), ?_, ?_⟩
    · unfold chainReadDir
      have := chainReadDirLoop_err rsc [] [] (by simp) hnm (Or.inr hne)
      simpa [errAcc] using this
    · intro x hx
      exact errorIs_errChainFSFn_errAcc _ x (mem_exceptErrs_of_error rsc x hx)
        (hnm x hx)

/-- The all-success backend row for the C1 witness. -/
def c1Oks : List (Except GoErr (List Nat)) := [.ok [3, 1], .ok [2, 3]]

/-- The mixed success/failure backend row for the C1 witness. -/
def c1Mixed : List (Except GoErr (List Nat)) :=
  [.error (.msg "dir miss"), .ok [7]]

/-- Witness for `chainFS_dir_ops_amended`: backends returning matches
`[3, 1]` and `[2, 3]` produce the deduplicated sorted union for both
operations; a glob error after one success aborts; a directory error
next to a success fails with an error matching the failure. -/
theorem chainFS_dir_ops_amended_witness :
    (∃ L, chainGlob c1Oks = .ok L ∧
      chainReadDir c1Oks = .ok L ∧
      List.Sorted (· < ·) L ∧
      (∀ x, x ∈ L ↔ ∃ l, Except.ok l ∈ c1Oks ∧ x ∈ l)) ∧
    (chainGlob ([Except.ok [7]] ++ .error (.msg "glob miss") :: []) =
      (.error (errChainFSFn (some (.msg "glob miss"))) : Except GoErr (List Nat))) ∧
    (∃ E, chainReadDir c1Mixed = .error E ∧
      ∀ x, .error x ∈ c1Mixed → errorIs E x = true) := by
  obtain ⟨ha, hb, hc⟩ := chainFS_dir_ops_amended
    c1Oks [Except.ok [7]] (.msg "glob miss") ([] : List (Except GoErr (List Nat)))
    c1Mixed
  exact ⟨ha (by intro r hr; fin_cases hr <;> exact ⟨_, rfl⟩),
    hb (by intro r hr; fin_cases hr <;> exact ⟨_, rfl⟩),
    hc ⟨.msg "dir miss", by simp [c1Mixed]⟩
      (by intro x hx
          rcases List.mem_cons.mp hx with h | h
          · rw [Except.error.injEq] at h; subst h; rfl
          · simp [c1Mixed] at h)⟩

/-! ## The gzip filesystem's decompressed-size budget

`gzipFile` wraps the gzip reader with a remaining-byte budget `n`
(read limit).  Each `Read` truncates the caller's buffer to the
remaining budget; once the budget is spent, a one-byte probe decides
between a clean `io.EOF` and `io.ErrUnexpectedEOF` by testing the
probe's error with `errors.Is(err, io.EOF)` — the probe's byte count
is discarded.

The gzip decompressor itself is modelled by the decompressed byte
stream it yields (`g`); DEFLATE decoding is outside the claims.
`compress/flate` hands the final data chunk back FUSED with `io.EOF`
(`Read` returns `n, f.err` once its buffered output drains), and
`gzip.Reader` propagates that fused `(n > 0, io.EOF)` result, so a
read that drains the stream reports `io.EOF` in the same call:

* a read on the already-exhausted stream answers `(0, io.EOF)`;
* a read that consumes the rest of the stream answers it with a fused
  `io.EOF` — in particular the one-byte probe against a stream holding
  exactly one more byte consumes that byte and still satisfies
  `errors.Is(err, io.EOF)`, so the truncated content is returned with
  a nil error;
* a probe against a stream holding two or more bytes answers
  `(1, nil)` and the budget check fails with `io.ErrUnexpectedEOF`.

`gzipFS.ReadFile` drains such a file with `io.ReadAll` and wraps any
error, discarding the partial data.  `io.ReadAll` repeatedly reads
with a positive-size buffer; `bufSz + 1` is the buffer size, keeping
it positive for every `bufSz`. -/

/-- `defaultGzipReadLimit = 1024 * 1024 * 128`. -/
def defaultGzipReadLimit : Int := 1024 * 1024 * 128

/-- How many bytes one `gzipFile.Read` hands over: the caller's buffer
truncated to the remaining budget (`if int64(len(p)) > c.n { p =
p[0:c.n] }`). -/
def gzipChunkLen (bufSz : Nat) (budget : Int) : Nat :=
  min (bufSz + 1) budget.toNat

/-- Draining a `gzipFile` with `io.ReadAll`: `g` is the remaining
decompressed stream, `budget` the remaining read limit (`c.n`).  With
the budget spent, the one-byte probe drains a single remaining byte
together with its fused `io.EOF` (clean end, byte discarded), and only
a stream still holding at least two bytes fails the
`errors.Is(err, io.EOF)` test and yields `io.ErrUnexpectedEOF`. -/
def gzipReadAll (bufSz : Nat) : List Nat → Int → List Nat × Option GoErr
  | [], _ => ([], none)
  | a :: as, budget =>
    if budget ≤ 0 then
      if as = [] then ([], none) else ([], some GoErr.unexpectedEOF)
    else
      ((a :: as).take (gzipChunkLen bufSz budget) ++
        (gzipReadAll bufSz ((a :: as).drop (gzipChunkLen bufSz budget))
          (budget - (((a :: as).take (gzipChunkLen bufSz budget)).length : Int))).1,
        (gzipReadAll bufSz ((a :: as).drop (gzipChunkLen bufSz budget))
          (budget - (((a :: as).take (gzipChunkLen bufSz budget)).length : Int))).2)
termination_by g _ => g.length
decreasing_by
  all_goals
    simp only [gzipChunkLen, List.length_drop, List.length_cons]
    omega

/-- `errGzipFSFn`: `fmt.Errorf("fsutil.gzipFS: %w", err)`. -/
def errGzipFSFn (e : GoErr) : GoErr := .wrapf "fsutil.gzipFS" e

/-- `gzipFS.ReadFile` on the decompression path: read the whole file,
returning nil content and the wrapped error on any read failure. -/
def gzipReadFileData (bufSz : Nat) (g : List Nat) (limit : Int) :
    Except GoErr (List Nat) :=
  match gzipReadAll bufSz g limit with
  | (_, some e) => .error (errGzipFSFn e)
  | (b, none) => .ok b

/-- Draining a `gzipFile`: the whole stream when it fits the budget;
the stream silently truncated to the budget when it exceeds it by
exactly one byte (the probe eats the final byte with its fused
`io.EOF`); `io.ErrUnexpectedEOF` when it exceeds it by two bytes or
more. -/
theorem gzipReadAll_spec (bufSz : Nat) :
    ∀ (n : Nat) (g : List Nat), g.length ≤ n → ∀ (budget : Int), 0 ≤ budget →
    ((g.length : Int) ≤ budget → gzipReadAll bufSz g budget = (g, none)) ∧
    ((g.length : Int) = budget + 1 →
      gzipReadAll bufSz g budget = (g.take budget.toNat, none)) ∧
    (budget + 1 < (g.length : Int) →
      (gzipReadAll bufSz g budget).2 = some GoErr.unexpectedEOF) := by
  intro n
  induction n with
  | zero =>
    intro g hg budget hpos
    have hnil : g = [] := by
      cases g with
      | nil => rfl
      | cons a as => simp at hg
    subst hnil
    refine ⟨fun _ => by rw [gzipReadAll], ?_, ?_⟩
    · intro h
      simp only [List.length_nil, Nat.cast_zero] at h
      omega
    · intro h
      simp only [List.length_nil, Nat.cast_zero] at h
      omega
  | succ n ih =>
    intro g hg budget hpos
    match g with
    | [] =>
      refine ⟨fun _ => by rw [gzipReadAll], ?_, ?_⟩
      · intro h
        simp only [List.length_nil, Nat.cast_zero] at h
        omega
      · intro h
        simp only [List.length_nil, Nat.cast_zero] at h
        omega
    | a :: as =>
      simp only [List.length_cons] at hg
      refine ⟨?_, ?_, ?_⟩
      · intro hfit
        simp only [List.length_cons] at hfit
        have hbpos : ¬ budget ≤ 0 := by push_cast at hfit; omega
        have hq1 : 1 ≤ gzipChunkLen bufSz budget := by
          simp only [gzipChunkLen]; omega
        rw [gzipReadAll, if_neg hbpos]
        have hrec := (ih ((a :: as).drop (gzipChunkLen bufSz budget))
          (by simp only [List.length_drop, List.length_cons]; omega)
          (budget - (((a :: as).take (gzipChunkLen bufSz budget)).length : Int))
          (by
            simp only [List.length_take, List.length_cons]
            simp only [gzipChunkLen]
            omega)).1
        rw [hrec (by
          simp only [List.length_drop, List.length_take, List.length_cons]
          push_cast at hfit ⊢
          simp only [gzipChunkLen] at *
          omega)]
        simp [List.take_append_drop]
      · intro hone
        simp only [List.length_cons] at hone
        by_cases hz : budget ≤ 0
        · have hb0 : budget = 0 := le_antisymm hz hpos
          subst hb0
          have hasnil : as = [] := by
            cases as with
            | nil => rfl
            | cons b bs =>
              simp only [List.length_cons] at hone
              push_cast at hone
              omega
          subst hasnil
          rw [gzipReadAll, if_pos (le_refl 0), if_pos rfl]
          simp
        · have hq1 : 1 ≤ gzipChunkLen bufSz budget := by
            simp only [gzipChunkLen]; omega
          have htl : (((a :: as).take (gzipChunkLen bufSz budget)).length : Int) =
              (gzipChunkLen bufSz budget : Int) := by
            simp only [List.length_take, List.length_cons]
            push_cast at hone ⊢
            simp only [gzipChunkLen] at *
            omega
          rw [gzipReadAll, if_neg hz]
          have hrec := (ih ((a :: as).drop (gzipChunkLen bufSz budget))
            (by simp only [List.length_drop, List.length_cons]; omega)
            (budget - (((a :: as).take (gzipChunkLen bufSz budget)).length : Int))
            (by
              simp only [List.length_take, List.length_cons]
              simp only [gzipChunkLen]
              omega)).2.1
          rw [hrec (by
            simp only [List.length_drop, List.length_take, List.length_cons]
            push_cast at hone ⊢
            simp only [gzipChunkLen] at *
            omega)]
          rw [htl]
          have hsplit : budget.toNat =
              gzipChunkLen bufSz budget +
                (budget - (gzipChunkLen bufSz budget : Int)).toNat := by
            simp only [gzipChunkLen] at *
            omega
          rw [show (a :: as).take budget.toNat =
              (a :: as).take (gzipChunkLen bufSz budget) ++
                ((a :: as).drop (gzipChunkLen bufSz budget)).take
                  (budget - (gzipChunkLen bufSz budget : Int)).toNat from by
            rw [hsplit, List.take_add]]
      · intro hover
        simp only [List.length_cons] at hover
        by_cases hz : budget ≤ 0
        · have hasne : as ≠ [] := by
            cases as with
            | nil =>
              exfalso
              simp only [List.length_nil] at hover
              push_cast at hover
              omega
            | cons b bs => simp
          rw [gzipReadAll, if_pos hz, if_neg hasne]
        · rw [gzipReadAll, if_neg hz]
          have hq1 : 1 ≤ gzipChunkLen bufSz budget := by
            simp only [gzipChunkLen]; omega
          have hrec := (ih ((a :: as).drop (gzipChunkLen bufSz budget))
            (by simp only [List.length_drop, List.length_cons]; omega)
            (budget - (((a :: as).take (gzipChunkLen bufSz budget)).length : Int))
            (by
              simp only [List.length_take, List.length_cons]
              simp only [gzipChunkLen]
              omega)).2.2
          exact hrec (by
            simp only [List.length_drop, List.length_take, List.length_cons]
            push_cast at hover ⊢
            simp only [gzipChunkLen] at *
            omega)

/-- Claim C8 counterexample: a 5-byte decompressed stream against
limit 4 — the stream is strictly larger than the limit, yet `ReadFile`
does NOT fail with `io.ErrUnexpectedEOF`: the exhausted-budget probe
consumes the fifth byte together with its fused `io.EOF`, the
`errors.Is(err, io.EOF)` check reads that as a clean end, and the
first four bytes are returned as truncated data with a nil error. -/
theorem gzipFS_read_limit_cex :
    (4 : Int) < (([10, 20, 30, 40, 50] : List Nat).length : Int) ∧
    gzipReadFileData 0 [10, 20, 30, 40, 50] 4 = .ok [10, 20, 30, 40] := by
  refine ⟨by decide, ?_⟩
  have h := (gzipReadAll_spec 0 5 [10, 20, 30, 40, 50] (le_refl _) 4
    (by decide)).2.1 (by decide)
  unfold gzipReadFileData
  rw [h]
  rfl

/-- C8 (amended): the default decompressed-byte limit is 128 MiB =
134217728 bytes; content at most the limit is returned in full;
content exceeding the limit by exactly one byte is silently truncated
to the limit and returned with a nil error (the one-byte probe
consumes the final byte together with its fused `io.EOF`, which the
`errors.Is` check treats as a clean end of stream); only an excess of
at least two bytes makes `ReadFile` fail with an error matching
`io.ErrUnexpectedEOF` and return no data. -/
theorem gzipFS_read_limit_amended (bufSz : Nat) (g : List Nat) (limit : Int)
    (hpos : 0 ≤ limit) :
    defaultGzipReadLimit = 134217728 ∧
    ((g.length : Int) ≤ limit → gzipReadFileData bufSz g limit = .ok g) ∧
    ((g.length : Int) = limit + 1 →
      gzipReadFileData bufSz g limit = .ok (g.take limit.toNat) ∧
      g.take limit.toNat ≠ g) ∧
    (limit + 1 < (g.length : Int) →
      gzipReadFileData bufSz g limit = .error (errGzipFSFn .unexpectedEOF) ∧
      errorIs (errGzipFSFn .unexpectedEOF) .unexpectedEOF = true) := by
  obtain ⟨hfit, hone, hover⟩ :=
    gzipReadAll_spec bufSz g.length g (le_refl _) limit hpos
  refine ⟨by decide, ?_, ?_, ?_⟩
  · intro h
    unfold gzipReadFileData
    rw [hfit h]
  · intro h
    constructor
    · unfold gzipReadFileData
      rw [hone h]
    · intro hcontra
      have hlen := congrArg List.length hcontra
      simp only [List.length_take] at hlen
      omega
  · intro h
    have h2 := hover h
    constructor
    · unfold gzipReadFileData
      match hcase : gzipReadAll bufSz g limit, h2 with
      | (b, some e), h2 =>
        rw [Option.some.injEq] at h2
        subst h2
        rfl
      | (b, none), h2 =>
        simp at h2
    · simp [errorIs, errGzipFSFn, goErrBeq]

/-- Witness for `gzipFS_read_limit_amended`: a 5-byte stream against
limit 5 (returned in full), limit 4 (silently truncated to 4 bytes,
nil error) and limit 3 (fails with unexpected end of file). -/
theorem gzipFS_read_limit_amended_witness :
    (defaultGzipReadLimit = 134217728 ∧
      gzipReadFileData 0 [10, 20, 30, 40, 50] 5 = .ok [10, 20, 30, 40, 50]) ∧
    (gzipReadFileData 0 [10, 20, 30, 40, 50] 4 = .ok [10, 20, 30, 40] ∧
      [10, 20, 30, 40] ≠ [10, 20, 30, 40, 50]) ∧
    (gzipReadFileData 0 [10, 20, 30, 40, 50] 3 =
        .error (errGzipFSFn .unexpectedEOF) ∧
      errorIs (errGzipFSFn .unexpectedEOF) .unexpectedEOF = true) :=
  ⟨⟨(gzipFS_read_limit_amended 0 [10, 20, 30, 40, 50] 5 (by decide)).1,
    (gzipFS_read_limit_amended 0 [10, 20, 30, 40, 50] 5 (by decide)).2.1
      (by decide)⟩,
   (gzipFS_read_limit_amended 0 [10, 20, 30, 40, 50] 4 (by decide)).2.2.1
      (by decide),
   (gzipFS_read_limit_amended 0 [10, 20, 30, 40, 50] 3 (by decide)).2.2.2
      (by decide)⟩

/-! ## The HTTP filesystem's response mapping

`httpFS.Open` validates the name with `fs.ValidPath`, builds the
request URL, performs the GET and maps the response status: 200 yields
a `file` whose metadata carries the response's content length and the
`Last-Modified` header (falling back to the current time when the
header is absent or unparseable); 404 maps to `fs.ErrNotExist`;
401/402/403 map to `fs.ErrPermission`; any other status yields the
generic status-code error (built without `%w`, so it wraps nothing).
URL construction and transport errors are not part of the claim; the
model takes the response the backend delivered for the request. -/

/-- An abstract instant (the model of `time.Time`). -/
abbrev GoTime := Int

/-- `fs.ValidPath`: the path is `"."`, or a non-empty slash-separated
sequence of elements none of which is empty, `"."` or `".."`.  (The
UTF-8 validity check is vacuous here: modelled strings are byte lists
obtained from valid UTF-8.) -/
def goFsValidPath (name : GoStr) : Bool :=
  if name = gs "." then true
  else
    (name.splitOn 47).all (fun e => !e.isEmpty && e ≠ gs "." && e ≠ gs "..")

/-- The relevant parts of an `http.Response`: the status code, the
content length, and the `Last-Modified` header as parsed by
`lastModTime` (`none` when absent or unparseable). -/
structure HTTPResponse where
  status : Nat
  contentLength : Int
  lastModified : Option GoTime

/-- `lastModTime`: the parsed `Last-Modified` header, or `time.Now()`
when parsing fails. -/
def lastModTime (lm : Option GoTime) (now : GoTime) : GoTime :=
  match lm with
  | some t => t
  | none => now

/-- The `fileInfo` produced by `httpFS.Open`. -/
structure HTTPFileInfo where
  name : GoStr
  size : Int
  mode : Nat
  modTime : GoTime
  isDir : Bool
deriving DecidableEq

/-- `errHTTPFSRequestErrorFn`: `fmt.Errorf("fsutil.httpFS: %s: %w",
url, err)` (the URL text is not load-bearing for any claim and is not
carried by the model). -/
def errHTTPFSRequestErrorFn (e : GoErr) : GoErr :=
  .wrapf "fsutil.httpFS: request" e

/-- `errHTTPFSInvalidPathFn`: wraps a path-validation `fs.PathError`
carrying `fs.ErrInvalid`. -/
def errHTTPFSInvalidPathFn (p : GoStr) : GoErr :=
  .wrapf "fsutil.httpFS: invalid path" (.pathError "open" p .errInvalid)

/-- `httpFS.Open`, from the response delivered by the server: the
status switch of `mux.go` lines 167–187. -/
def httpFSOpen (name : GoStr) (resp : HTTPResponse) (now : GoTime) :
    Except GoErr HTTPFileInfo :=
  if !goFsValidPath name then .error (errHTTPFSInvalidPathFn name)
  else if resp.status ≠ 200 then
    if resp.status = 404 then .error (errHTTPFSRequestErrorFn .errNotExist)
    else if resp.status = 401 ∨ resp.status = 402 ∨ resp.status = 403 then
      .error (errHTTPFSRequestErrorFn .errPermission)
    else .error (.statusCodeErr resp.status)
  else
    .ok { name := name, size := resp.contentLength, mode := 0,
          modTime := lastModTime resp.lastModified now, isDir := false }

/-- Claim C5: for every valid path, a 200 response yields a file whose
metadata carries the response's content length and last-modified time;
404 yields an error matching `fs.ErrNotExist`; 401, 402 and 403 yield
errors matching `fs.ErrPermission`; and any other non-200 status
yields the generic status-code error, which matches neither
`fs.ErrNotExist` nor `fs.ErrPermission`. -/
theorem httpFS_open_status_mapping (name : GoStr) (resp : HTTPResponse)
    (now : GoTime) (hvalid : goFsValidPath name = true) :
    (resp.status = 200 → ∀ t, resp.lastModified = some t →
      httpFSOpen name resp now =
        .ok { name := name, size := resp.contentLength, mode := 0,
              modTime := t, isDir := false }) ∧
    (resp.status = 404 → ∃ e, httpFSOpen name resp now = .error e ∧
      errorIs e .errNotExist = true) ∧
    (resp.status = 401 ∨ resp.status = 402 ∨ resp.status = 403 →
      ∃ e, httpFSOpen name resp now = .error e ∧
        errorIs e .errPermission = true) ∧
    (resp.status ≠ 200 → resp.status ≠ 404 → resp.status ≠ 401 →
      resp.status ≠ 402 → resp.status ≠ 403 →
      httpFSOpen name resp now = .error (.statusCodeErr resp.status) ∧
      errorIs (.statusCodeErr resp.status) .errNotExist = false ∧
      errorIs (.statusCodeErr resp.status) .errPermission = false) := by
  have hv : (!goFsValidPath name) = false := by rw [hvalid]; rfl
  refine ⟨?_, ?_, ?_, ?_⟩
  · intro h200 t ht
    unfold httpFSOpen
    rw [hv, if_neg (by simp), if_neg (by simp [h200]), ht]
    rfl
  · intro h404
    refine ⟨errHTTPFSRequestErrorFn .errNotExist, ?_, ?_⟩
    · unfold httpFSOpen
      rw [hv, if_neg (by simp), if_pos (by simp [h404]), if_pos h404]
    · simp [errorIs, errHTTPFSRequestErrorFn, goErrBeq]
  · intro hperm
    refine ⟨errHTTPFSRequestErrorFn .errPermission, ?_, ?_⟩
    · unfold httpFSOpen
      have hne200 : resp.status ≠ 200 := by rcases hperm with h | h | h <;> omega
      have hne404 : resp.status ≠ 404 := by rcases hperm with h | h | h <;> omega
      rw [hv, if_neg (by simp), if_pos (by simp [hne200]), if_neg (by simp [hne404]),
        if_pos hperm]
    · simp [errorIs, errHTTPFSRequestErrorFn, goErrBeq]
  · intro hne200 hne404 hne401 hne402 hne403
    refine ⟨?_, ?_, ?_⟩
    · unfold httpFSOpen
      rw [hv, if_neg (by simp), if_pos (by simp [hne200]), if_neg (by simp [hne404]),
        if_neg (by rintro (h | h | h) <;> omega)]
    · simp [errorIs, goErrBeq]
    · simp [errorIs, goErrBeq]

/-- Witness for `httpFS_open_status_mapping` at the path `file.txt`
with concrete 200/404/402/500 responses. -/
theorem httpFS_open_status_mapping_witness :
    (httpFSOpen (gs "file.txt") ⟨200, 42, some 7⟩ 99 =
      .ok { name := gs "file.txt", size := 42, mode := 0, modTime := 7,
            isDir := false }) ∧
    (∃ e, httpFSOpen (gs "file.txt") ⟨404, 0, none⟩ 99 = .error e ∧
      errorIs e .errNotExist = true) ∧
    (∃ e, httpFSOpen (gs "file.txt") ⟨402, 0, none⟩ 99 = .error e ∧
      errorIs e .errPermission = true) ∧
    (httpFSOpen (gs "file.txt") ⟨500, 0, none⟩ 99 = .error (.statusCodeErr 500) ∧
      errorIs (.statusCodeErr 500) .errNotExist = false ∧
      errorIs (.statusCodeErr 500) .errPermission = false) := by
  have hvalid : goFsValidPath (gs "file.txt") = true := by decide
  exact ⟨(httpFS_open_status_mapping (gs "file.txt") ⟨200, 42, some 7⟩ 99 hvalid).1
      rfl 7 rfl,
    (httpFS_open_status_mapping (gs "file.txt") ⟨404, 0, none⟩ 99 hvalid).2.1 rfl,
    (httpFS_open_status_mapping (gs "file.txt") ⟨402, 0, none⟩ 99 hvalid).2.2.1
      (Or.inr (Or.inl rfl)),
    (httpFS_open_status_mapping (gs "file.txt") ⟨500, 0, none⟩ 99 hvalid).2.2.2
      (by decide) (by decide) (by decide) (by decide) (by decide)⟩

/-! ## URI path extraction and `path.Clean`

`uriPath` takes the URL's escaped path, strips one leading slash, maps
an empty or `"/"` result to `"."`, optionally appends the raw query
(after `?`) and escaped fragment (after `#`), and cleans the result
with `path.Clean`.  `path.Clean` is Go's lazybuf algorithm: `out` is
the output buffer, `dotdot` the output position up to which `..` may
not backtrack; `cleanBacktrack` is the inner loop that pops one path
element off the buffer.  Byte 47 is `/`, 46 is `.`, 63 is `?`,
35 is `#`. -/

/-- The backtracking step of `path.Clean` on a `..` element:
`out.w--; for out.w > dotdot && out.index(out.w) != '/' { out.w-- }`,
returning the buffer truncated to the final `out.w`. -/
def cleanBacktrack (out : List Nat) (dotdot : Nat) : List Nat :=
  go (out.length - 1)
where
  go (w : Nat) : List Nat :=
    if _h : dotdot < w ∧ out.getD w 0 ≠ 47 then go (w - 1)
    else out.take w
  termination_by w
  decreasing_by omega

/-- The main loop of `path.Clean` over the remaining input bytes. -/
def cleanLoop (rooted : Bool) : List Nat → List Nat → Nat → List Nat
  | [], out, _ => out
  | c :: rest, out, dotdot =>
    if c = 47 then
      cleanLoop rooted rest out dotdot
    else if c = 46 ∧ (rest.head? = none ∨ rest.head? = some 47) then
      cleanLoop rooted rest out dotdot
    else if c = 46 ∧ rest.head? = some 46 ∧
        ((rest.drop 1).head? = none ∨ (rest.drop 1).head? = some 47) then
      if dotdot < out.length then
        cleanLoop rooted (rest.drop 1) (cleanBacktrack out dotdot) dotdot
      else if rooted = false then
        cleanLoop rooted (rest.drop 1)
          ((if 0 < out.length then out ++ [47] else out) ++ [46, 46])
          ((if 0 < out.length then out ++ [47] else out) ++ [46, 46]).length
      else cleanLoop rooted (rest.drop 1) out dotdot
    else
      cleanLoop rooted (rest.dropWhile (fun b => b ≠ 47))
        ((if (rooted = true ∧ out.length ≠ 1) ∨ (rooted = false ∧ out.length ≠ 0)
          then out ++ [47] else out) ++ c :: rest.takeWhile (fun b => b ≠ 47))
        dotdot
termination_by l _ _ => l.length
decreasing_by
  · simp only [List.length_cons]; omega
  · simp only [List.length_cons]; omega
  · simp only [List.length_cons, List.length_drop]; omega
  · simp only [List.length_cons, List.length_drop]; omega
  · simp only [List.length_cons, List.length_drop]; omega
  · have := List.Sublist.length_le (List.dropWhile_sublist (fun b => b ≠ 47) (l := rest))
    simp only [List.length_cons]
    omega

/-- `path.Clean`. -/
def pathClean (path : GoStr) : GoStr :=
  if path = [] then gs "."
  else if path.head? = some 47 then
    if cleanLoop true (path.drop 1) [47] 1 = [] then gs "."
    else cleanLoop true (path.drop 1) [47] 1
  else
    if cleanLoop false path [] 0 = [] then gs "."
    else cleanLoop false path [] 0

/-- The model of `net/url.URL` as consumed by `uriPath`: the escaped
path (`EscapedPath()`), the query flags/text and the escaped
fragment. -/
structure GoURL where
  escapedPath : GoStr
  forceQuery : Bool
  rawQuery : GoStr
  escapedFragment : GoStr

/-- The escaped path with one leading `/` stripped
(`if len(p) > 0 && p[0] == '/' { p = p[1:] }`). -/
def uriPathStripped (u : GoURL) : GoStr :=
  if u.escapedPath.head? = some 47 then u.escapedPath.drop 1 else u.escapedPath

/-- The builder content after the empty/root-path switch: `""` and
`"/"` both become `"."`. -/
def uriPathW (u : GoURL) : GoStr :=
  if uriPathStripped u = [] then gs "."
  else if uriPathStripped u = gs "/" then gs "."
  else uriPathStripped u

/-- `uriPath`: the builder content, with query and fragment appended
when requested, cleaned by `path.Clean`. -/
def uriPath (u : GoURL) (inclQueryAndFragment : Bool) : GoStr :=
  pathClean
    (if inclQueryAndFragment then
      (if u.forceQuery || !u.rawQuery.isEmpty then uriPathW u ++ 63 :: u.rawQuery
       else uriPathW u) ++
      (if !u.escapedFragment.isEmpty then 35 :: u.escapedFragment else [])
     else uriPathW u)

/-- Claim C9: for a URI without query and fragment parts, the protocol
layer's path extraction maps path `""` and path `"/"` to `"."`, and
path `"/a/b"` to `"a/b"`. -/
theorem uriPath_normalization (u : GoURL)
    (hq : u.rawQuery = []) (hfq : u.forceQuery = false)
    (hf : u.escapedFragment = []) :
    ((u.escapedPath = gs "" ∨ u.escapedPath = gs "/") → uriPath u true = gs ".") ∧
    (u.escapedPath = gs "/a/b" → uriPath u true = gs "a/b") := by
  have g1 : gs "" = [] := by decide
  have g2 : gs "/" = [47] := by decide
  have g3 : gs "." = [46] := by decide
  have g4 : gs "/a/b" = [47, 97, 47, 98] := by decide
  have g5 : gs "a/b" = [97, 47, 98] := by decide
  obtain ⟨p, fq, rq, fr⟩ := u
  simp only at hq hfq hf
  subst hq hfq hf
  constructor
  · rintro (hp | hp) <;>
    · simp only at hp
      subst hp
      simp +decide [uriPath, uriPathW, uriPathStripped, pathClean, cleanLoop,
        g1, g2, g3]
  · intro hp
    simp only at hp
    subst hp
    simp +decide [uriPath, uriPathW, uriPathStripped, pathClean, cleanLoop,
      g2, g3, g4, g5]

/-- Witness for `uriPath_normalization` at three concrete URLs. -/
theorem uriPath_normalization_witness :
    (uriPath ⟨gs "", false, [], []⟩ true = gs "." ∧
      uriPath ⟨gs "/", false, [], []⟩ true = gs ".") ∧
    uriPath ⟨gs "/a/b", false, [], []⟩ true = gs "a/b" :=
  ⟨⟨(uriPath_normalization ⟨gs "", false, [], []⟩ rfl rfl rfl).1 (Or.inl rfl),
    (uriPath_normalization ⟨gs "/", false, [], []⟩ rfl rfl rfl).1 (Or.inr rfl)⟩,
   (uriPath_normalization ⟨gs "/a/b", false, [], []⟩ rfl rfl rfl).2 rfl⟩

/-! ## `net/url` query strings and the checksum filesystem

`checksumFS.checksumParam` locates the first `?` in the name, parses
the query with `net/url.ParseQuery`, reads the configured parameter
with `Values.Get`, parses it as a 32-byte hex digest (go-eth
`types.HashFromHex` with `PadNone`), and on success deletes the
parameter and re-encodes the remaining query with `Values.Encode`.
Any failure along the way (no `?`, malformed query, missing or invalid
digest value) returns the name unchanged with the zero hash, which
disables verification.

`url.Values` is modelled as an association list from keys to value
lists; `ParseQuery` builds it with ordered upserts, `Encode` emits the
entries sorted by key with query-escaping, `Get` reads the first value
of a key, `Del` removes a key.  Query escaping and unescaping follow
Go's `shouldEscape(c, encodeQueryComponent)` / `unescape(s,
encodeQueryComponent)`: bytes other than ASCII alphanumerics and
`-._~` are `%XX`-escaped, space becomes `+`. -/

/-- Go's `ishex`. -/
def ishex (c : Nat) : Bool :=
  (48 ≤ c ∧ c ≤ 57) ∨ (97 ≤ c ∧ c ≤ 102) ∨ (65 ≤ c ∧ c ≤ 70)

/-- Go's `unhex`. -/
def unhex (c : Nat) : Nat :=
  if 48 ≤ c ∧ c ≤ 57 then c - 48
  else if 97 ≤ c ∧ c ≤ 102 then c - 97 + 10
  else if 65 ≤ c ∧ c ≤ 70 then c - 65 + 10
  else 0

/-- The byte `"0123456789ABCDEF"[d]` used by Go's `escape`. -/
def upperhex (d : Nat) : Nat := if d < 10 then 48 + d else 55 + d

/-- `shouldEscape(c, encodeQueryComponent)`: everything except ASCII
alphanumerics and `-`, `_`, `.`, `~` is escaped in a query component. -/
def shouldEscapeQuery (c : Nat) : Bool :=
  if (97 ≤ c ∧ c ≤ 122) ∨ (65 ≤ c ∧ c ≤ 90) ∨ (48 ≤ c ∧ c ≤ 57) then false
  else if c = 45 ∨ c = 95 ∨ c = 46 ∨ c = 126 then false
  else true

/-- `url.QueryEscape`: space to `+`, escaped bytes to `%XX` with
uppercase hex, the rest verbatim. -/
def goQueryEscape (s : GoStr) : GoStr :=
  s.flatMap fun c =>
    if c = 32 then [43]
    else if shouldEscapeQuery c then [37, upperhex (c / 16), upperhex (c % 16)]
    else [c]

/-- `url.QueryUnescape` (`unescape` in query-component mode): `%` must
be followed by two hex digits, `+` decodes to space. -/
def goUnescapeQuery : GoStr → Except Unit GoStr
  | [] => .ok []
  | c :: rest =>
    if c = 37 then
      match rest with
      | a :: b :: rest2 =>
        if ishex a ∧ ishex b then
          match goUnescapeQuery rest2 with
          | .ok t => .ok ((unhex a * 16 + unhex b) :: t)
          | .error e => .error e
        else .error ()
      | _ => .error ()
    else if c = 43 then
      match goUnescapeQuery rest with
      | .ok t => .ok (32 :: t)
      | .error e => .error e
    else
      match goUnescapeQuery rest with
      | .ok t => .ok (c :: t)
      | .error e => .error e

/-- `strings.Cut(s, sep)` for a one-byte separator: the part before
the first occurrence, the part after it, and whether it occurred. -/
def goCut (s : GoStr) (sep : Nat) : GoStr × GoStr × Bool :=
  match s.dropWhile (fun b => b ≠ sep) with
  | [] => (s, [], false)
  | _ :: after => (s.takeWhile (fun b => b ≠ sep), after, true)

/-- Cutting a nonempty string strictly shrinks the after-part. -/
theorem goCut_after_length (s : GoStr) (sep : Nat) (hne : s ≠ []) :
    (goCut s sep).2.1.length < s.length := by
  unfold goCut
  rcases hdw : s.dropWhile (fun b => b ≠ sep) with _ | ⟨x, after⟩
  · cases s with
    | nil => exact absurd rfl hne
    | cons a as => simp
  · have hsub := List.Sublist.length_le
      (List.dropWhile_sublist (fun b => b ≠ sep) (l := s))
    rw [hdw] at hsub
    simp only [List.length_cons] at hsub
    show after.length < s.length
    omega

/-- `url.Values`: an association list from keys to value lists. -/
abbrev GoValues := List (GoStr × List GoStr)

/-- `m[key] = append(m[key], value)`: ordered upsert. -/
def valuesAdd (k v : GoStr) : GoValues → GoValues
  | [] => [(k, [v])]
  | (k2, vs) :: rest =>
    if k2 = k then (k2, vs ++ [v]) :: rest else (k2, vs) :: valuesAdd k v rest

/-- The value list stored under a key. -/
def valuesLookup (k : GoStr) : GoValues → Option (List GoStr)
  | [] => none
  | (k2, vs) :: rest => if k2 = k then some vs else valuesLookup k rest

/-- `url.Values.Get`: the first value of the key, `""` when absent. -/
def valuesGet (k : GoStr) (m : GoValues) : GoStr :=
  match valuesLookup k m with
  | some (v :: _) => v
  | _ => []

/-- `url.Values.Del`. -/
def valuesDel (k : GoStr) (m : GoValues) : GoValues :=
  m.filter (fun p => p.1 ≠ k)

/-- The loop of `url.ParseQuery`: cut at `&`, reject chunks holding a
`;`, skip empty chunks, cut at `=`, unescape key and value (collecting
an error but continuing), and upsert. -/
def goParseQueryLoop : GoStr → GoValues → Bool → GoValues × Bool
  | q, m, err =>
    if q = [] then (m, err)
    else
      match hcut : goCut q 38 with
      | (key, q2, _) =>
        if 59 ∈ key then goParseQueryLoop q2 m true
        else if key = [] then goParseQueryLoop q2 m err
        else
          match goCut key 61 with
          | (k, v, _) =>
            match goUnescapeQuery k with
            | .error _ => goParseQueryLoop q2 m true
            | .ok k2 =>
              match goUnescapeQuery v with
              | .error _ => goParseQueryLoop q2 m true
              | .ok v2 => goParseQueryLoop q2 (valuesAdd k2 v2 m) err
termination_by q _ _ => q.length
decreasing_by
  all_goals
    have hne : q ≠ [] := by assumption
    have hlen := goCut_after_length q 38 hne
    rw [hcut] at hlen
    simpa using hlen

/-- `url.ParseQuery`: the parsed values and whether a parse error
occurred (the partially filled map is returned either way). -/
def goParseQuery (q : GoStr) : GoValues × Bool :=
  goParseQueryLoop q [] false

/-- Bytewise `≤` on Go strings (the order used by `slices.Sort` on the
query keys). -/
def lexLe : GoStr → GoStr → Bool
  | [], _ => true
  | _ :: _, [] => false
  | a :: as, b :: bs => if a < b then true else if b < a then false else lexLe as bs

/-- `url.Values.Encode`: entries sorted by key; each value emitted as
`escapedKey=escapedValue`, joined with `&`. -/
def valuesEncode (m : GoValues) : GoStr :=
  List.intercalate [38]
    ((m.mergeSort (fun a b => lexLe a.1 b.1)).flatMap
      (fun p => p.2.map (fun v => goQueryEscape p.1 ++ 61 :: goQueryEscape v)))

/-- The 32-byte zero hash (`types.ZeroHash`). -/
def zeroHash : List Nat := List.replicate 32 0

/-- Decoding pairs of hex digits into bytes. -/
def hexPairsToBytes : GoStr → List Nat
  | a :: b :: rest => (unhex a * 16 + unhex b) :: hexPairsToBytes rest
  | _ => []

/-- Model of the external go-eth dependency `types.HashFromHex(h,
PadNone)`: an optional `0x`/`0X` prefix followed by exactly 64 hex
digits decodes to the 32-byte hash; anything else is an error. -/
def hashFromHex (s : GoStr) : Option (List Nat) :=
  if s.take 2 = gs "0x" ∨ s.take 2 = gs "0X" then
    if (s.drop 2).length = 64 ∧ (s.drop 2).all ishex then
      some (hexPairsToBytes (s.drop 2))
    else none
  else
    if s.length = 64 ∧ s.all ishex then some (hexPairsToBytes s)
    else none

/-- `checksumFS.checksumParam`: extract the expected digest from the
configured query parameter, returning the name with the parameter
stripped (other parameters re-encoded) — or the name unchanged and the
zero hash when there is no `?`, the query does not parse, or the
parameter value is not a valid digest. -/
def checksumParam (param name : GoStr) : GoStr × List Nat :=
  match goCut name 63 with
  | (_, _, false) => (name, zeroHash)
  | (before, after, true) =>
    match goParseQuery after with
    | (_, true) => (name, zeroHash)
    | (v, false) =>
      match hashFromHex (valuesGet param v) with
      | none => (name, zeroHash)
      | some h =>
        if valuesDel param v = [] then (before, h)
        else (before ++ 63 :: valuesEncode (valuesDel param v), h)

/-- The two verification-timing modes of the checksum filesystem. -/
inductive ChecksumMode where
  | afterRead
  | afterOpen

/-- What `checksumFS.Open` hands back: the inner file untouched
(pass-through, no digest), the inner file wrapped in the incremental
verifier (`checksumFile`), or the eagerly verified content
(`ChecksumFSVerifyAfterOpen`).  A file's content is its list of read
chunks. -/
inductive CksFile where
  | plain (chunks : List (List Nat))
  | verified (chunks : List (List Nat)) (expected : List Nat)
  | eager (data : List Nat)

/-- `errChecksumFSFn`: `fmt.Errorf("fsutil.checksumFS: %w", err)`. -/
def errChecksumFSFn (e : GoErr) : GoErr := .wrapf "fsutil.checksumFS" e

/-- Draining a `checksumFile` with `io.ReadAll`: the hash state is the
byte sequence written so far; at end of stream the digest of all
hashed bytes is compared against the expected digest and the read
reports either a clean end of file or the mismatch error. -/
def checksumReadAll (hashFn : List Nat → List Nat) (expected : List Nat) :
    List (List Nat) → List Nat → List Nat × Option GoErr
  | [], hashed =>
    if expected = hashFn hashed then ([], none)
    else ([], some .checksumMismatch)
  | c :: cs, hashed =>
    ((c ++ (checksumReadAll hashFn expected cs (hashed ++ c)).1),
      (checksumReadAll hashFn expected cs (hashed ++ c)).2)

/-- `checksumFS.Open`: strip the checksum parameter, open the inner
file, and pass it through unchanged (zero hash), wrap it for
incremental verification (`ChecksumFSVerifyAfterRead`), or read and
verify it eagerly (`ChecksumFSVerifyAfterOpen`). -/
def checksumOpen (inner : GoStr → Except GoErr (List (List Nat)))
    (hashFn : List Nat → List Nat) (param : GoStr) (mode : ChecksumMode)
    (name : GoStr) : Except GoErr CksFile :=
  match inner (checksumParam param name).1 with
  | .error e => .error (errChecksumFSFn e)
  | .ok f =>
    if (checksumParam param name).2 = zeroHash then .ok (.plain f)
    else
      match mode with
      | .afterRead => .ok (.verified f (checksumParam param name).2)
      | .afterOpen =>
        match (checksumReadAll hashFn (checksumParam param name).2 f []).2 with
        | some e => .error (errChecksumFSFn e)
        | none => .ok (.eager (checksumReadAll hashFn (checksumParam param name).2 f []).1)

/-- `io.ReadAll` over an opened checksum-filesystem file. -/
def cksReadAllFile (hashFn : List Nat → List Nat) : CksFile → List Nat × Option GoErr
  | .plain f => (f.flatten, none)
  | .verified f h => checksumReadAll hashFn h f []
  | .eager d => (d, none)

/-- `checksumFS.ReadFile`: `Open` then `io.ReadAll` (which returns the
bytes read so far together with any error). -/
def checksumReadFile (inner : GoStr → Except GoErr (List (List Nat)))
    (hashFn : List Nat → List Nat) (param : GoStr) (mode : ChecksumMode)
    (name : GoStr) : List Nat × Option GoErr :=
  match checksumOpen inner hashFn param mode name with
  | .error e => ([], some e)
  | .ok f => cksReadAllFile hashFn f

/-- Claim C7 counterexample: the path `x?checksum=zz` carries the
checksum query parameter, but its value is not a valid digest, so
`checksumParam` leaves the path untouched — the parameter is NOT
removed before the inner `Open` — and `Open` passes the unstripped
path through with no verification (the recording inner filesystem
returns its argument, showing what it was called with). -/
theorem checksumFS_param_strip_cex :
    checksumParam (gs "checksum") (gs "x?checksum=zz") =
      (gs "x?checksum=zz", zeroHash) ∧
    gs "x?checksum=zz" ≠ gs "x" ∧
    checksumOpen (fun n => .ok [n]) (fun _ => zeroHash) (gs "checksum")
        .afterRead (gs "x?checksum=zz") =
      .ok (.plain [gs "x?checksum=zz"]) := by
  have hg : gs "x?checksum=zz" =
      [120, 63, 99, 104, 101, 99, 107, 115, 117, 109, 61, 122, 122] := by decide
  have hgp : gs "checksum" = [99, 104, 101, 99, 107, 115, 117, 109] := by decide
  have hparam : checksumParam (gs "checksum") (gs "x?checksum=zz") =
      (gs "x?checksum=zz", zeroHash) := by
    rw [hg, hgp]
    simp +decide [checksumParam, goCut, goParseQuery, goParseQueryLoop,
      goUnescapeQuery, valuesAdd, valuesGet, valuesLookup, hashFromHex,
      ishex, unhex, zeroHash]
  refine ⟨hparam, by decide, ?_⟩
  unfold checksumOpen
  rw [hparam]
  simp

/-- Hex digits round-trip through Go's uppercase hex table. -/
theorem upperhex_roundtrip : ∀ d < 16, ishex (upperhex d) = true ∧ unhex (upperhex d) = d := by
  decide

/-- The uppercase hex table never emits a query-significant byte. -/
theorem upperhex_ne (d : Nat) :
    upperhex d ≠ 38 ∧ upperhex d ≠ 59 ∧ upperhex d ≠ 61 ∧ upperhex d ≠ 63 := by
  unfold upperhex
  by_cases h : d < 10
  · rw [if_pos h]; omega
  · rw [if_neg h]; omega

/-- A byte that query-escaping leaves verbatim is none of the
separator or escape-trigger bytes. -/
theorem shouldEscapeQuery_false_ne (c : Nat) (h : shouldEscapeQuery c = false) :
    c ≠ 37 ∧ c ≠ 43 ∧ c ≠ 38 ∧ c ≠ 59 ∧ c ≠ 61 ∧ c ≠ 63 ∧ c ≠ 35 := by
  unfold shouldEscapeQuery at h
  by_cases h1 : (97 ≤ c ∧ c ≤ 122) ∨ (65 ≤ c ∧ c ≤ 90) ∨ (48 ≤ c ∧ c ≤ 57)
  · omega
  · rw [if_neg h1] at h
    by_cases h2 : c = 45 ∨ c = 95 ∨ c = 46 ∨ c = 126
    · omega
    · rw [if_neg h2] at h
      exact absurd h (by simp)

/-- One escaped byte, as emitted by `goQueryEscape`. -/
def escByte (c : Nat) : GoStr :=
  if c = 32 then [43]
  else if shouldEscapeQuery c then [37, upperhex (c / 16), upperhex (c % 16)]
  else [c]

/-- `goQueryEscape` emits one `escByte` per input byte. -/
theorem goQueryEscape_cons (c : Nat) (rest : GoStr) :
    goQueryEscape (c :: rest) = escByte c ++ goQueryEscape rest := by
  simp [goQueryEscape, escByte, List.flatMap_cons]

/-- Query-unescaping inverts query-escaping on byte strings. -/
theorem unescape_escape (s : GoStr) (hb : ∀ c ∈ s, c < 256) :
    goUnescapeQuery (goQueryEscape s) = .ok s := by
  induction s with
  | nil => rfl
  | cons c rest ih =>
    have hc : c < 256 := hb c (by simp)
    have ihr := ih (fun x hx => hb x (by simp [hx]))
    rw [goQueryEscape_cons]
    by_cases h32 : c = 32
    · subst h32
      simp only [escByte, if_pos rfl, List.cons_append, List.nil_append]
      rw [goUnescapeQuery.eq_def]
      simp [ihr]
    · by_cases hesc : shouldEscapeQuery c = true
      · simp only [escByte, if_neg h32, if_pos hesc, List.cons_append,
          List.nil_append]
        rw [goUnescapeQuery.eq_def]
        have hd1 := upperhex_roundtrip (c / 16) (by omega)
        have hd2 := upperhex_roundtrip (c % 16) (by omega)
        simp [ihr, hd1.1, hd2.1, hd1.2, hd2.2]
        omega
      · have hne := shouldEscapeQuery_false_ne c (by
          cases hval : shouldEscapeQuery c
          · rfl
          · exact absurd hval hesc)
        simp only [escByte, if_neg h32, if_neg hesc, List.cons_append,
          List.nil_append]
        rw [goUnescapeQuery.eq_def]
        simp [hne.1, hne.2.1, ihr]

/-- Query-escaped text never holds a separator byte (`&`, `;`, `=`,
`?`). -/
theorem goQueryEscape_mem (s : GoStr) :
    ∀ c2 ∈ goQueryEscape s, c2 ≠ 38 ∧ c2 ≠ 59 ∧ c2 ≠ 61 ∧ c2 ≠ 63 := by
  intro c2 hc2
  unfold goQueryEscape at hc2
  rw [List.mem_flatMap] at hc2
  obtain ⟨c, _, hmem⟩ := hc2
  by_cases h32 : c = 32
  · subst h32
    simp at hmem
    omega
  · by_cases hesc : shouldEscapeQuery c = true
    · simp only [if_neg h32, if_pos hesc, List.mem_cons,
        List.not_mem_nil, or_false] at hmem
      rcases hmem with h | h | h
      · subst h; omega
      · subst h; exact upperhex_ne _
      · subst h; exact upperhex_ne _
    · simp only [if_neg h32, if_neg hesc, List.mem_cons,
        List.not_mem_nil, or_false] at hmem
      rw [hmem]
      have := shouldEscapeQuery_false_ne c (by
        cases hval : shouldEscapeQuery c
        · rfl
        · exact absurd hval hesc)
      exact ⟨this.2.2.1, this.2.2.2.1, this.2.2.2.2.1, this.2.2.2.2.2.1⟩

/-- Dropping up to a separator absent from the prefix lands exactly on
the separator. -/
theorem dropWhile_append_sep (chunk rest : GoStr) (sep : Nat) (h : sep ∉ chunk) :
    (chunk ++ sep :: rest).dropWhile (fun b => b ≠ sep) = sep :: rest := by
  induction chunk with
  | nil => simp [List.dropWhile_cons]
  | cons a as ih =>
    have hane : a ≠ sep := fun hc => h (by simp [hc])
    rw [List.cons_append, List.dropWhile_cons, if_pos (decide_eq_true hane)]
    exact ih (fun hc => h (by simp [hc]))

/-- Taking up to a separator absent from the prefix keeps exactly the
prefix. -/
theorem takeWhile_append_sep (chunk rest : GoStr) (sep : Nat) (h : sep ∉ chunk) :
    (chunk ++ sep :: rest).takeWhile (fun b => b ≠ sep) = chunk := by
  induction chunk with
  | nil => simp [List.takeWhile_cons]
  | cons a as ih =>
    have hane : a ≠ sep := fun hc => h (by simp [hc])
    rw [List.cons_append, List.takeWhile_cons, if_pos (decide_eq_true hane)]
    rw [ih (fun hc => h (by simp [hc]))]

/-- `strings.Cut` at a separator absent from the prefix. -/
theorem goCut_append (chunk rest : GoStr) (sep : Nat) (h : sep ∉ chunk) :
    goCut (chunk ++ sep :: rest) sep = (chunk, rest, true) := by
  unfold goCut
  rw [dropWhile_append_sep chunk rest sep h, takeWhile_append_sep chunk rest sep h]

/-- `strings.Cut` on a string free of the separator. -/
theorem goCut_nosep (chunk : GoStr) (sep : Nat) (h : sep ∉ chunk) :
    goCut chunk sep = (chunk, [], false) := by
  unfold goCut
  have hdw : chunk.dropWhile (fun b => b ≠ sep) = [] := by
    induction chunk with
    | nil => rfl
    | cons a as ih =>
      have hane : a ≠ sep := fun hc => h (by simp [hc])
      rw [List.dropWhile_cons, if_pos (decide_eq_true hane)]
      exact ih (fun hc => h (by simp [hc]))
  rw [hdw]

/-- Any byte of either `strings.Cut` part is a byte of the input. -/
theorem goCut_mem (s : GoStr) (sep : Nat) :
    (∀ x ∈ (goCut s sep).1, x ∈ s) ∧ (∀ x ∈ (goCut s sep).2.1, x ∈ s) := by
  unfold goCut
  rcases hdw : s.dropWhile (fun b => b ≠ sep) with _ | ⟨y, after⟩
  · exact ⟨fun x hx => hx, fun x hx => by cases hx⟩
  · constructor
    · intro x hx
      exact List.Sublist.subset (List.takeWhile_sublist _) hx
    · intro x hx
      have h1 : (y :: after).Sublist s := hdw ▸ List.dropWhile_sublist _
      exact List.Sublist.subset h1 (by simp [hx])

/-- `unhex` yields a hex digit value. -/
theorem unhex_lt (c : Nat) : unhex c < 16 := by
  unfold unhex
  by_cases h1 : 48 ≤ c ∧ c ≤ 57
  · rw [if_pos h1]; omega
  · rw [if_neg h1]
    by_cases h2 : 97 ≤ c ∧ c ≤ 102
    · rw [if_pos h2]; omega
    · rw [if_neg h2]
      by_cases h3 : 65 ≤ c ∧ c ≤ 70
      · rw [if_pos h3]; omega
      · rw [if_neg h3]; omega

/-- Unescaping a byte string yields a byte string. -/
theorem goUnescapeQuery_bounds : ∀ (n : Nat) (s : GoStr), s.length ≤ n →
    ∀ t, goUnescapeQuery s = .ok t → (∀ c ∈ s, c < 256) → ∀ c ∈ t, c < 256 := by
  intro n
  induction n with
  | zero =>
    intro s hs t ht hb
    have hnil : s = [] := List.eq_nil_of_length_eq_zero (Nat.le_zero.mp hs)
    subst hnil
    cases ht
    intro c hc
    cases hc
  | succ n ih =>
    intro s hs t ht hb
    rw [goUnescapeQuery.eq_def] at ht
    split at ht
    · cases ht
      intro c hc
      cases hc
    · rename_i c rest
      split at ht
      · split at ht
        · rename_i a b rest2
          split at ht
          · split at ht
            · rename_i t2 hrec
              injection ht with ht
              subst ht
              simp only [List.length_cons] at hs
              intro c2 hc2
              rcases List.mem_cons.mp hc2 with h | h
              · have := unhex_lt a
                have := unhex_lt b
                omega
              · exact ih rest2 (by omega) t2 hrec
                  (fun x hx => hb x (by simp [hx])) c2 h
            · exact absurd ht (by simp)
          · exact absurd ht (by simp)
        · exact absurd ht (by simp)
      · split at ht
        · split at ht
          · rename_i t2 hrec
            injection ht with ht
            subst ht
            simp only [List.length_cons] at hs
            intro c2 hc2
            rcases List.mem_cons.mp hc2 with h | h
            · omega
            · exact ih rest (by omega) t2 hrec
                (fun x hx => hb x (by simp [hx])) c2 h
          · exact absurd ht (by simp)
        · split at ht
          · rename_i t2 hrec
            injection ht with ht
            subst ht
            simp only [List.length_cons] at hs
            intro c2 hc2
            rcases List.mem_cons.mp hc2 with h | h
            · exact h ▸ hb c (by simp)
            · exact ih rest (by omega) t2 hrec
                (fun x hx => hb x (by simp [hx])) c2 h
          · exact absurd ht (by simp)

/-- The invariant `url.ParseQuery` maintains on its accumulator: keys
are unique, every value list is nonempty, and all bytes are bytes. -/
def queryInv (m : GoValues) : Prop :=
  (m.map Prod.fst).Nodup ∧
    ∀ p ∈ m, p.2 ≠ [] ∧ (∀ c ∈ p.1, c < 256) ∧ ∀ v ∈ p.2, ∀ c ∈ v, c < 256

/-- A key of the upserted map is an old key or the new one. -/
theorem valuesAdd_fst_mem (k v : GoStr) (m : GoValues) :
    ∀ x ∈ (valuesAdd k v m).map Prod.fst, x ∈ m.map Prod.fst ∨ x = k := by
  induction m with
  | nil =>
    intro x hx
    simp [valuesAdd] at hx
    exact Or.inr hx
  | cons p rest ih =>
    intro x hx
    obtain ⟨k2, vs⟩ := p
    by_cases hk : k2 = k
    · simp [valuesAdd, if_pos hk] at hx
      rcases hx with h | h
      · exact Or.inr (hk ▸ h)
      · exact Or.inl (by simp [h])
    · simp only [valuesAdd, if_neg hk, List.map_cons, List.mem_cons] at hx
      rcases hx with h | h
      · exact Or.inl (by simp [h])
      · rcases ih x h with h2 | h2
        · exact Or.inl (by simp [h2])
        · exact Or.inr h2

/-- Upserting preserves the parse invariant when the new pair is made
of bytes. -/
theorem valuesAdd_inv (k v : GoStr) (m : GoValues)
    (hk : ∀ c ∈ k, c < 256) (hv : ∀ c ∈ v, c < 256) (h : queryInv m) :
    queryInv (valuesAdd k v m) := by
  induction m with
  | nil =>
    refine ⟨by simp [valuesAdd], ?_⟩
    intro p hp
    simp [valuesAdd] at hp
    subst hp
    exact ⟨by simp, hk, by simpa using hv⟩
  | cons q rest ih =>
    obtain ⟨k2, vs⟩ := q
    obtain ⟨hnd, hall⟩ := h
    simp only [List.map_cons, List.nodup_cons] at hnd
    have hrest : queryInv rest := ⟨hnd.2, fun p hp => hall p (by simp [hp])⟩
    have hhead := hall (k2, vs) (by simp)
    by_cases hkk : k2 = k
    · refine ⟨?_, ?_⟩
      · simpa [valuesAdd, if_pos hkk] using hnd
      · intro p hp
        simp only [valuesAdd, if_pos hkk, List.mem_cons] at hp
        rcases hp with h | h
        · subst h
          refine ⟨by simp, hhead.2.1, ?_⟩
          intro v2 hv2
          rcases List.mem_append.mp hv2 with h2 | h2
          · exact hhead.2.2 v2 h2
          · simp at h2
            exact h2 ▸ hv
        · exact hall p (by simp [h])
    · obtain ⟨ihnd, ihall⟩ := ih hrest
      refine ⟨?_, ?_⟩
      · simp only [valuesAdd, if_neg hkk, List.map_cons, List.nodup_cons]
        refine ⟨?_, ihnd⟩
        intro hmem
        rcases valuesAdd_fst_mem k v rest k2 hmem with h2 | h2
        · exact hnd.1 h2
        · exact hkk h2
      · intro p hp
        simp only [valuesAdd, if_neg hkk, List.mem_cons] at hp
        rcases hp with h | h
        · exact h ▸ hhead
        · exact ihall p h

/-- A key is absent exactly when the lookup misses. -/
theorem valuesLookup_none_iff (k : GoStr) (m : GoValues) :
    valuesLookup k m = none ↔ k ∉ m.map Prod.fst := by
  induction m with
  | nil => simp [valuesLookup]
  | cons p rest ih =>
    obtain ⟨k2, vs⟩ := p
    by_cases hk : k2 = k
    · simp [valuesLookup, if_pos hk, hk]
    · simp [valuesLookup, if_neg hk, ih, Ne.symm hk]

/-- A hit of the lookup is an entry of the list. -/
theorem valuesLookup_some_mem (k : GoStr) (m : GoValues) (vs : List GoStr)
    (h : valuesLookup k m = some vs) : (k, vs) ∈ m := by
  induction m with
  | nil => simp [valuesLookup] at h
  | cons p rest ih =>
    obtain ⟨k2, vs2⟩ := p
    by_cases hk : k2 = k
    · rw [valuesLookup, if_pos hk] at h
      simp at h
      simp [hk, h]
    · rw [valuesLookup, if_neg hk] at h
      exact List.mem_cons.mpr (Or.inr (ih h))

/-- With unique keys, an entry of the list is the lookup's hit. -/
theorem valuesLookup_of_mem (k : GoStr) (m : GoValues) (vs : List GoStr)
    (hnd : (m.map Prod.fst).Nodup) (h : (k, vs) ∈ m) :
    valuesLookup k m = some vs := by
  induction m with
  | nil => simp at h
  | cons p rest ih =>
    obtain ⟨k2, vs2⟩ := p
    simp only [List.map_cons, List.nodup_cons] at hnd
    rcases List.mem_cons.mp h with h2 | h2
    · rw [show k2 = k from by injection h2.symm]
      rw [valuesLookup, if_pos rfl]
      injection h2.symm with h3 h4
      rw [h4]
    · by_cases hk : k2 = k
      · exact absurd (hk ▸ (by simpa using List.mem_map_of_mem Prod.fst h2))
          hnd.1
      · rw [valuesLookup, if_neg hk]
        exact ih hnd.2 h2

/-- Lookup is stable under permutation when keys are unique. -/
theorem valuesLookup_perm (m1 m2 : GoValues) (hp : m1.Perm m2)
    (hnd : (m2.map Prod.fst).Nodup) (k : GoStr) :
    valuesLookup k m1 = valuesLookup k m2 := by
  have hnd1 : (m1.map Prod.fst).Nodup :=
    (List.Perm.nodup_iff (List.Perm.map Prod.fst hp)).mpr hnd
  cases h1 : valuesLookup k m1 with
  | none =>
    rw [valuesLookup_none_iff] at h1
    have h2 : k ∉ m2.map Prod.fst := fun hmem =>
      h1 ((List.Perm.mem_iff (List.Perm.map Prod.fst hp)).mpr hmem)
    exact ((valuesLookup_none_iff k m2).mpr h2).symm
  | some vs =>
    have h2 : (k, vs) ∈ m2 :=
      (List.Perm.mem_iff hp).mp (valuesLookup_some_mem k m1 vs h1)
    exact (valuesLookup_of_mem k m2 vs hnd h2).symm

/-- `Del` removes the key. -/
theorem valuesLookup_del_self (k : GoStr) (m : GoValues) :
    valuesLookup k (valuesDel k m) = none := by
  rw [valuesLookup_none_iff, valuesDel]
  intro hmem
  rw [List.mem_map] at hmem
  obtain ⟨p, hp, hfst⟩ := hmem
  rw [List.mem_filter] at hp
  exact absurd hfst (by simpa using hp.2)

/-- `Del` keeps every other key's values. -/
theorem valuesLookup_del_other (param k : GoStr) (m : GoValues)
    (hk : k ≠ param) : valuesLookup k (valuesDel param m) = valuesLookup k m := by
  induction m with
  | nil => rfl
  | cons p rest ih =>
    obtain ⟨k2, vs⟩ := p
    by_cases hp : k2 = param
    · subst hp
      have hne : ¬k2 = k := fun h => hk (h ▸ rfl)
      simp only [valuesDel, List.filter_cons]
      simp only [show (decide (¬(k2, vs).1 = k2)) = false from by simp]
      rw [show valuesLookup k ((k2, vs) :: rest) = valuesLookup k rest from by
        rw [valuesLookup, if_neg hne]]
      exact ih
    · simp only [valuesDel, List.filter_cons]
      simp only [show (decide (¬(k2, vs).1 = param)) = true from by simpa using hp]
      by_cases hkk : k2 = k
      · simp [valuesLookup, hkk]
      · simp only [valuesLookup, if_neg hkk]
        exact ih

/-- The parse loop keeps its accumulator invariant for byte-string
queries. -/
theorem goParseQueryLoop_inv : ∀ (n : Nat) (q : GoStr), q.length ≤ n →
    ∀ (m : GoValues) (err : Bool), queryInv m → (∀ c ∈ q, c < 256) →
    queryInv (goParseQueryLoop q m err).1 := by
  intro n
  induction n with
  | zero =>
    intro q hq m err hm _
    have hnil : q = [] := List.eq_nil_of_length_eq_zero (Nat.le_zero.mp hq)
    subst hnil
    rw [goParseQueryLoop]
    simpa using hm
  | succ n ih =>
    intro q hq m err hm hb
    rw [goParseQueryLoop]
    by_cases hqe : q = []
    · rw [if_pos hqe]
      exact hm
    · rw [if_neg hqe]
      split
      rename_i key q2 flag hc
      have hlen := goCut_after_length q 38 hqe
      rw [hc] at hlen
      have hq2len : q2.length ≤ n := by
        simp only [] at hlen
        omega
      have hmemq := goCut_mem q 38
      rw [hc] at hmemq
      have hbq2 : ∀ c ∈ q2, c < 256 := fun c hcm => hb c (hmemq.2 c hcm)
      have hbkey : ∀ c ∈ key, c < 256 := fun c hcm => hb c (hmemq.1 c hcm)
      split
      · exact ih q2 hq2len m true hm hbq2
      · split
        · exact ih q2 hq2len m err hm hbq2
        · split
          rename_i k v flag2 hc2
          have hmemkey := goCut_mem key 61
          rw [hc2] at hmemkey
          have hbk : ∀ c ∈ k, c < 256 := fun c hcm => hbkey c (hmemkey.1 c hcm)
          have hbv : ∀ c ∈ v, c < 256 := fun c hcm => hbkey c (hmemkey.2 c hcm)
          split
          · exact ih q2 hq2len m true hm hbq2
          · rename_i k2 hk2
            split
            · exact ih q2 hq2len m true hm hbq2
            · rename_i v2 hv2
              have hbk2 := goUnescapeQuery_bounds k.length k (le_refl _) k2 hk2 hbk
              have hbv2 := goUnescapeQuery_bounds v.length v (le_refl _) v2 hv2 hbv
              exact ih q2 hq2len (valuesAdd k2 v2 m) err
                (valuesAdd_inv k2 v2 m hbk2 hbv2 hm) hbq2

/-- `url.ParseQuery` of a byte string yields unique nonempty byte
entries. -/
theorem goParseQuery_inv (q : GoStr) (hb : ∀ c ∈ q, c < 256) :
    queryInv (goParseQuery q).1 := by
  unfold goParseQuery
  refine goParseQueryLoop_inv q.length q (le_refl _) [] false ?_ hb
  exact ⟨by simp, by simp⟩

/-- One encoded `key=value` chunk of `url.Values.Encode`. -/
def escPair (p : GoStr × GoStr) : GoStr :=
  goQueryEscape p.1 ++ 61 :: goQueryEscape p.2

/-- An encoded chunk holds neither `&` nor `;` nor `?`. -/
theorem escPair_not_mem (p : GoStr × GoStr) :
    ∀ x ∈ escPair p, x ≠ 38 ∧ x ≠ 59 ∧ x ≠ 63 := by
  intro x hx
  rcases List.mem_append.mp hx with h | h
  · have := goQueryEscape_mem p.1 x h
    exact ⟨this.1, this.2.1, this.2.2.2⟩
  · rcases List.mem_cons.mp h with h2 | h2
    · subst h2
      refine ⟨by omega, by omega, by omega⟩
    · have := goQueryEscape_mem p.2 x h2
      exact ⟨this.1, this.2.1, this.2.2.2⟩

/-- An encoded chunk is nonempty. -/
theorem escPair_ne_nil (p : GoStr × GoStr) : escPair p ≠ [] := by
  simp [escPair]

/-- A byte of an `&`-joined list is `&` or a byte of a part. -/
theorem mem_intercalate38 (chunks : List GoStr) (x : Nat) :
    x ∈ List.intercalate [38] chunks → x = 38 ∨ ∃ c ∈ chunks, x ∈ c := by
  induction chunks with
  | nil =>
    intro h
    simp [List.intercalate] at h
  | cons c rest ih =>
    cases rest with
    | nil =>
      rw [show List.intercalate [38] [c] = c from by simp [List.intercalate]]
      intro h
      exact Or.inr ⟨c, by simp, h⟩
    | cons d rest2 =>
      rw [show List.intercalate [38] (c :: d :: rest2) =
        c ++ [38] ++ List.intercalate [38] (d :: rest2) from by
          simp [List.intercalate]]
      intro h
      simp only [List.append_assoc, List.mem_append, List.mem_singleton] at h
      rcases h with h | h | h
      · exact Or.inr ⟨c, by simp, h⟩
      · exact Or.inl h
      · rcases ih h with h2 | h2
        · exact Or.inl h2
        · obtain ⟨c2, hc2, hx2⟩ := h2
          exact Or.inr ⟨c2, by simp [hc2], hx2⟩

/-- One parse-loop step across an encoded chunk: the chunk's key and
value are unescaped back and upserted. -/
theorem goParseQueryLoop_chunk_step (k v q2 : GoStr) (flag : Bool)
    (m : GoValues) (err : Bool)
    (hbk : ∀ c ∈ k, c < 256) (hbv : ∀ c ∈ v, c < 256)
    (q : GoStr) (hqne : q ≠ [])
    (hc : goCut q 38 = (goQueryEscape k ++ 61 :: goQueryEscape v, q2, flag)) :
    goParseQueryLoop q m err = goParseQueryLoop q2 (valuesAdd k v m) err := by
  have h59 : ¬59 ∈ goQueryEscape k ++ 61 :: goQueryEscape v := by
    intro hmem
    have := escPair_not_mem (k, v) 59 hmem
    exact this.2.1 rfl
  have hne : goQueryEscape k ++ 61 :: goQueryEscape v ≠ [] := escPair_ne_nil (k, v)
  have h61 : 61 ∉ goQueryEscape k := fun hmem =>
    (goQueryEscape_mem k 61 hmem).2.2.1 rfl
  rw [goParseQueryLoop, if_neg hqne, hc]
  simp only [if_neg h59, if_neg hne,
    goCut_append (goQueryEscape k) (goQueryEscape v) 61 h61,
    unescape_escape k hbk, unescape_escape v hbv]

/-- Parsing a fully encoded pair list folds the pairs back into the
accumulator. -/
theorem goParseQueryLoop_encoded : ∀ (ps : List (GoStr × GoStr)),
    (∀ p ∈ ps, (∀ c ∈ p.1, c < 256) ∧ (∀ c ∈ p.2, c < 256)) →
    ∀ (m : GoValues) (err : Bool),
    goParseQueryLoop (List.intercalate [38] (ps.map escPair)) m err =
      (ps.foldl (fun m2 p => valuesAdd p.1 p.2 m2) m, err) := by
  intro ps
  induction ps with
  | nil =>
    intro _ m err
    rw [List.map_nil, show List.intercalate [38] ([] : List GoStr) = [] from by
      simp [List.intercalate]]
    rw [goParseQueryLoop]
    simp
  | cons p rest ih =>
    intro hb m err
    obtain ⟨hbk, hbv⟩ := hb p (by simp)
    have hbrest : ∀ p2 ∈ rest, (∀ c ∈ p2.1, c < 256) ∧ ∀ c ∈ p2.2, c < 256 :=
      fun p2 hp2 => hb p2 (by simp [hp2])
    have h38 : 38 ∉ escPair p := fun hmem => (escPair_not_mem p 38 hmem).1 rfl
    cases rest with
    | nil =>
      rw [List.map_cons, List.map_nil,
        show List.intercalate [38] [escPair p] = escPair p from by
          simp [List.intercalate]]
      rw [goParseQueryLoop_chunk_step p.1 p.2 [] false m err hbk hbv
        (escPair p) (escPair_ne_nil p) (goCut_nosep (escPair p) 38 h38)]
      rw [goParseQueryLoop]
      simp
    | cons p2 rest2 =>
      rw [List.map_cons,
        show List.intercalate [38] (escPair p :: (p2 :: rest2).map escPair) =
          escPair p ++ 38 :: List.intercalate [38] ((p2 :: rest2).map escPair)
          from by simp [List.intercalate]]
      rw [goParseQueryLoop_chunk_step p.1 p.2
        (List.intercalate [38] ((p2 :: rest2).map escPair)) true m err hbk hbv
        _ (by simp) (goCut_append (escPair p) _ 38 h38)]
      rw [ih hbrest (valuesAdd p.1 p.2 m) err]
      simp [List.foldl_cons]

/-- Upserting a fresh key appends a singleton entry. -/
theorem valuesAdd_new (k v : GoStr) (m : GoValues)
    (h : valuesLookup k m = none) : valuesAdd k v m = m ++ [(k, [v])] := by
  induction m with
  | nil => rfl
  | cons p rest ih =>
    obtain ⟨k2, vs⟩ := p
    by_cases hk : k2 = k
    · rw [valuesLookup, if_pos hk] at h
      cases h
    · rw [valuesLookup, if_neg hk] at h
      rw [valuesAdd, if_neg hk, ih h, List.cons_append]

/-- Upserting onto a trailing entry with the same key extends it. -/
theorem valuesAdd_last (k v : GoStr) (m : GoValues) (acc : List GoStr)
    (h : valuesLookup k m = none) :
    valuesAdd k v (m ++ [(k, acc)]) = m ++ [(k, acc ++ [v])] := by
  induction m with
  | nil => simp [valuesAdd]
  | cons p rest ih =>
    obtain ⟨k2, vs⟩ := p
    by_cases hk : k2 = k
    · rw [valuesLookup, if_pos hk] at h
      cases h
    · rw [valuesLookup, if_neg hk] at h
      rw [List.cons_append, valuesAdd, if_neg hk, ih h, List.cons_append]

/-- Lookup skips a prefix free of the key. -/
theorem valuesLookup_append_none (k : GoStr) (m1 m2 : GoValues)
    (h : valuesLookup k m1 = none) :
    valuesLookup k (m1 ++ m2) = valuesLookup k m2 := by
  induction m1 with
  | nil => rfl
  | cons p rest ih =>
    obtain ⟨k2, vs⟩ := p
    by_cases hk : k2 = k
    · rw [valuesLookup, if_pos hk] at h
      cases h
    · rw [valuesLookup, if_neg hk] at h
      rw [List.cons_append, valuesLookup, if_neg hk, ih h]

/-- Folding all values of one fresh key appends one entry carrying
them all. -/
theorem foldl_values_one_key : ∀ (vs : List GoStr) (k : GoStr) (m : GoValues)
    (acc : List GoStr), valuesLookup k m = none →
    List.foldl (fun m2 p => valuesAdd p.1 p.2 m2) (m ++ [(k, acc)])
      (vs.map (fun v => (k, v))) = m ++ [(k, acc ++ vs)] := by
  intro vs
  induction vs with
  | nil =>
    intro k m acc _
    simp
  | cons v vs2 ih =>
    intro k m acc h
    rw [List.map_cons, List.foldl_cons]
    simp only []
    rw [valuesAdd_last k v m acc h, ih k m (acc ++ [v]) h, List.append_assoc]
    simp

/-- All pairs of one `url.Values` entry list, in entry order. -/
def pairsList (w : GoValues) : List (GoStr × GoStr) :=
  w.flatMap (fun p => p.2.map (fun v => (p.1, v)))

/-- Folding the pair list of a well-formed `url.Values` rebuilds it. -/
theorem foldl_pairsList : ∀ (w : GoValues) (m : GoValues),
    (w.map Prod.fst).Nodup → (∀ p ∈ w, p.2 ≠ []) →
    (∀ p ∈ w, valuesLookup p.1 m = none) →
    List.foldl (fun m2 p => valuesAdd p.1 p.2 m2) m (pairsList w) = m ++ w := by
  intro w
  induction w with
  | nil =>
    intro m _ _ _
    simp [pairsList]
  | cons p rest ih =>
    intro m hnd hnz hfresh
    obtain ⟨k, vs⟩ := p
    have hlk : valuesLookup k m = none := hfresh (k, vs) (by simp)
    simp only [List.map_cons, List.nodup_cons] at hnd
    rw [show pairsList ((k, vs) :: rest) =
      (vs.map fun v => (k, v)) ++ pairsList rest from by simp [pairsList]]
    rw [List.foldl_append]
    match vs, hnz (k, vs) (by simp) with
    | v :: vs2, _ =>
      rw [List.map_cons, List.foldl_cons]
      simp only []
      rw [valuesAdd_new k v m hlk, foldl_values_one_key vs2 k m [v] hlk]
      rw [ih (m ++ [(k, [v] ++ vs2)]) hnd.2
        (fun p2 hp2 => hnz p2 (by simp [hp2]))
        (fun p2 hp2 => by
          have hne : ¬k = p2.1 := fun h =>
            hnd.1 (h ▸ List.mem_map_of_mem Prod.fst hp2)
          rw [valuesLookup_append_none p2.1 m [(k, [v] ++ vs2)]
            (hfresh p2 (by simp [hp2]))]
          rw [valuesLookup, if_neg hne]
          rfl)]
      simp

/-- Parsing the encoding of a well-formed byte-string `url.Values`
succeeds and preserves every key's values. -/
theorem goParseQuery_encode (w : GoValues)
    (hnd : (w.map Prod.fst).Nodup)
    (hnz : ∀ p ∈ w, p.2 ≠ [])
    (hbw : ∀ p ∈ w, (∀ c ∈ p.1, c < 256) ∧ ∀ v ∈ p.2, ∀ c ∈ v, c < 256) :
    (goParseQuery (valuesEncode w)).2 = false ∧
    ∀ k, valuesLookup k (goParseQuery (valuesEncode w)).1 = valuesLookup k w := by
  have hperm : (w.mergeSort (fun a b => lexLe a.1 b.1)).Perm w :=
    List.mergeSort_perm w _
  have hndu : ((w.mergeSort (fun a b => lexLe a.1 b.1)).map Prod.fst).Nodup :=
    (List.Perm.nodup_iff (List.Perm.map Prod.fst hperm)).mpr hnd
  have hnzu : ∀ p ∈ w.mergeSort (fun a b => lexLe a.1 b.1), p.2 ≠ [] :=
    fun p hp => hnz p ((List.Perm.mem_iff hperm).mp hp)
  have hbwu : ∀ p ∈ w.mergeSort (fun a b => lexLe a.1 b.1),
      (∀ c ∈ p.1, c < 256) ∧ ∀ v ∈ p.2, ∀ c ∈ v, c < 256 :=
    fun p hp => hbw p ((List.Perm.mem_iff hperm).mp hp)
  have henc : valuesEncode w =
      List.intercalate [38] ((pairsList (w.mergeSort
        (fun a b => lexLe a.1 b.1))).map escPair) := by
    unfold valuesEncode pairsList
    rw [List.map_flatMap]
    congr 1
    refine congrArg _ ?_
    funext p
    rw [List.map_map]
    rfl
  have hbp : ∀ p ∈ pairsList (w.mergeSort (fun a b => lexLe a.1 b.1)),
      (∀ c ∈ p.1, c < 256) ∧ ∀ c ∈ p.2, c < 256 := by
    intro p hp
    rw [pairsList, List.mem_flatMap] at hp
    obtain ⟨q, hq, hpm⟩ := hp
    rw [List.mem_map] at hpm
    obtain ⟨v, hv, hpv⟩ := hpm
    subst hpv
    exact ⟨(hbwu q hq).1, (hbwu q hq).2 v hv⟩
  have hrun : goParseQuery (valuesEncode w) =
      (w.mergeSort (fun a b => lexLe a.1 b.1), false) := by
    rw [henc]
    unfold goParseQuery
    rw [goParseQueryLoop_encoded _ hbp [] false]
    rw [foldl_pairsList _ [] hndu hnzu (fun p _ => rfl)]
    simp
  refine ⟨by rw [hrun], ?_⟩
  intro k
  rw [hrun]
  exact valuesLookup_perm _ w hperm hnd k

/-- When `strings.Cut` finds the separator, the before-part is free of
it. -/
theorem goCut_sep_not_mem_before (s : GoStr) (sep : Nat)
    (before after : GoStr) (h : goCut s sep = (before, after, true)) :
    sep ∉ before := by
  unfold goCut at h
  rcases hdw : s.dropWhile (fun b => b ≠ sep) with _ | ⟨x, rest⟩ <;> rw [hdw] at h
  · simp at h
  · have hbe : before = s.takeWhile (fun b => b ≠ sep) := by
      injection h with h1 h2
      exact h1.symm
    intro hmem
    rw [hbe] at hmem
    have := List.mem_takeWhile_imp hmem
    simp at this

/-- Parsing the empty query yields the empty map without error. -/
theorem goParseQuery_nil : goParseQuery ([] : GoStr) = ([], false) := by
  unfold goParseQuery
  rw [goParseQueryLoop]
  simp

/-- C7 (amended): `checksumFS.Open` strips the checksum parameter only
when the whole query parses cleanly and the parameter carries a valid
hex digest (then the base path and every other parameter's values are
preserved and the digest is extracted); a path with no `?` is left
untouched with the zero digest, and a zero digest makes `Open` a pure
pass-through of the inner file; on any parse or digest failure the
path is passed through unmodified (no stripping), as the
counterexample shows. -/
theorem checksumFS_param_strip_amended
    (inner : GoStr → Except GoErr (List (List Nat)))
    (hashFn : List Nat → List Nat) (param name : GoStr) (mode : ChecksumMode)
    (hb : ∀ c ∈ name, c < 256) :
    (63 ∉ name → checksumParam param name = (name, zeroHash)) ∧
    ((checksumParam param name).2 = zeroHash →
      checksumOpen inner hashFn param mode name =
        match inner (checksumParam param name).1 with
        | .ok f => .ok (.plain f)
        | .error e => .error (errChecksumFSFn e)) ∧
    (∀ before after v h,
      goCut name 63 = (before, after, true) →
      goParseQuery after = (v, false) →
      hashFromHex (valuesGet param v) = some h →
      (checksumParam param name).2 = h ∧
      (goCut (checksumParam param name).1 63).1 = before ∧
      (goParseQuery (goCut (checksumParam param name).1 63).2.1).2 = false ∧
      valuesLookup param
        (goParseQuery (goCut (checksumParam param name).1 63).2.1).1 = none ∧
      ∀ k, k ≠ param →
        valuesLookup k
          (goParseQuery (goCut (checksumParam param name).1 63).2.1).1 =
        valuesLookup k v) := by
  refine ⟨?_, ?_, ?_⟩
  · intro h63
    simp only [checksumParam, goCut_nosep name 63 h63]
  · intro hz
    cases hi : inner (checksumParam param name).1 with
    | error e => simp only [checksumOpen, hi]
    | ok f => simp only [checksumOpen, hi, if_pos hz]
  · intro before after v h hcut hparse hdig
    have hbefore63 : 63 ∉ before := goCut_sep_not_mem_before name 63 before after hcut
    have hbafter : ∀ c ∈ after, c < 256 := by
      have hm := goCut_mem name 63
      rw [hcut] at hm
      exact fun c hcm => hb c (hm.2 c hcm)
    have hinv : queryInv v := by
      have := goParseQuery_inv after hbafter
      rw [hparse] at this
      exact this
    have hcp : checksumParam param name =
        (if valuesDel param v = [] then (before, h)
          else (before ++ 63 :: valuesEncode (valuesDel param v), h)) := by
      simp only [checksumParam, hcut, hparse, hdig]
    by_cases hdel : valuesDel param v = []
    · rw [if_pos hdel] at hcp
      have hallparam : ∀ p ∈ v, p.1 = param := by
        intro p hp
        by_contra hne
        have : p ∈ valuesDel param v := by
          rw [valuesDel, List.mem_filter]
          exact ⟨hp, by simpa using hne⟩
        rw [hdel] at this
        cases this
      refine ⟨by rw [hcp], ?_, ?_, ?_, ?_⟩
      · rw [hcp, goCut_nosep before 63 hbefore63]
      · rw [hcp, goCut_nosep before 63 hbefore63]
        simp [goParseQuery_nil]
      · rw [hcp, goCut_nosep before 63 hbefore63]
        simp [goParseQuery_nil, valuesLookup]
      · intro k hk
        rw [hcp, goCut_nosep before 63 hbefore63]
        simp only [goParseQuery_nil]
        rw [show valuesLookup k ([] : GoValues) = none from rfl]
        symm
        rw [valuesLookup_none_iff]
        intro hmem
        rw [List.mem_map] at hmem
        obtain ⟨p, hp, hfst⟩ := hmem
        exact hk (hfst ▸ hallparam p hp)
    · rw [if_neg hdel] at hcp
      have hndd : ((valuesDel param v).map Prod.fst).Nodup :=
        List.Nodup.sublist (List.Sublist.map Prod.fst (List.filter_sublist v))
          hinv.1
      have hmemd : ∀ p ∈ valuesDel param v, p ∈ v := by
        intro p hp
        rw [valuesDel, List.mem_filter] at hp
        exact hp.1
      have henc := goParseQuery_encode (valuesDel param v) hndd
        (fun p hp => (hinv.2 p (hmemd p hp)).1)
        (fun p hp => ⟨(hinv.2 p (hmemd p hp)).2.1, (hinv.2 p (hmemd p hp)).2.2⟩)
      have hcutr : goCut (before ++ 63 :: valuesEncode (valuesDel param v)) 63 =
          (before, valuesEncode (valuesDel param v), true) :=
        goCut_append before _ 63 hbefore63
      refine ⟨by rw [hcp], ?_, ?_, ?_, ?_⟩
      · rw [hcp, hcutr]
      · rw [hcp, hcutr]
        exact henc.1
      · rw [hcp, hcutr]
        simp only [henc.2 param]
        exact valuesLookup_del_self param v
      · intro k hk
        rw [hcp, hcutr]
        simp only [henc.2 k]
        exact valuesLookup_del_other param k v hk

/-- A concrete path carrying one ordinary parameter and a valid
checksum parameter. -/
def cksName : GoStr :=
  gs "x?a=1&checksum=0x1111111111111111111111111111111111111111111111111111111111111111"

/-- Its query part. -/
def cksAfter : GoStr :=
  gs "a=1&checksum=0x1111111111111111111111111111111111111111111111111111111111111111"

/-- Its parsed query values. -/
def cksVals : GoValues :=
  [(gs "a", [gs "1"]),
   (gs "checksum",
    [gs "0x1111111111111111111111111111111111111111111111111111111111111111"])]

theorem checksumFS_param_strip_amended_witness :
    (∀ c ∈ cksName, c < 256) ∧
    (checksumParam (gs "checksum") cksName).2 = List.replicate 32 17 ∧
    (goCut (checksumParam (gs "checksum") cksName).1 63).1 = gs "x" ∧
    valuesLookup (gs "checksum")
      (goParseQuery (goCut (checksumParam (gs "checksum") cksName).1 63).2.1).1 =
      none ∧
    valuesLookup (gs "a")
      (goParseQuery (goCut (checksumParam (gs "checksum") cksName).1 63).2.1).1 =
      valuesLookup (gs "a") cksVals := by
  have hb : ∀ c ∈ cksName, c < 256 := by decide
  have hcut : goCut cksName 63 = (gs "x", cksAfter, true) := by decide
  have hparse : goParseQuery cksAfter = (cksVals, false) := by
    have g1 : cksAfter = [97, 61, 49, 38, 99, 104, 101, 99, 107, 115, 117,
      109, 61, 48, 120] ++ List.replicate 64 49 := by decide
    have g2 : gs "a" = [97] := by decide
    have g3 : gs "1" = [49] := by decide
    have g4 : gs "checksum" = [99, 104, 101, 99, 107, 115, 117, 109] := by decide
    have g5 : gs
        "0x1111111111111111111111111111111111111111111111111111111111111111" =
        [48, 120] ++ List.replicate 64 49 := by decide
    rw [g1]
    simp +decide [goParseQuery, goParseQueryLoop, goCut, goUnescapeQuery,
      valuesAdd, ishex, unhex, cksVals, g2, g3, g4, g5]
  have hdig : hashFromHex (valuesGet (gs "checksum") cksVals) =
      some (List.replicate 32 17) := by decide
  have h := (checksumFS_param_strip_amended (fun n => Except.ok [n])
    (fun _ => zeroHash) (gs "checksum") cksName .afterRead hb).2.2
    (gs "x") cksAfter cksVals (List.replicate 32 17) hcut hparse hdig
  exact ⟨hb, h.1, h.2.1, h.2.2.2.1, h.2.2.2.2 (gs "a") (by decide)⟩

/-- Draining a `checksumFile` yields the whole content and compares
the expected digest against the hash of all bytes read. -/
theorem checksumReadAll_spec (hashFn : List Nat → List Nat)
    (expected : List Nat) : ∀ (cs : List (List Nat)) (hashed : List Nat),
    checksumReadAll hashFn expected cs hashed =
      (cs.flatten,
        if expected = hashFn (hashed ++ cs.flatten) then none
        else some .checksumMismatch) := by
  intro cs
  induction cs with
  | nil =>
    intro hashed
    rw [checksumReadAll]
    split <;> simp_all
  | cons c cs2 ih =>
    intro hashed
    rw [checksumReadAll, ih (hashed ++ c)]
    simp [List.append_assoc]

/-- C3: with a nonzero expected digest on the path and an inner
filesystem delivering content `D`, `ReadFile` on the checksum
filesystem returns exactly `D`'s bytes with no error when the digest
equals the configured hash of `D`, and otherwise reports an error
matching the checksum-mismatch sentinel, in both verification
modes. -/
theorem checksum_verify (inner : GoStr → Except GoErr (List (List Nat)))
    (hashFn : List Nat → List Nat) (param name : GoStr) (mode : ChecksumMode)
    (D : List (List Nat)) (h : List Nat)
    (hinner : inner (checksumParam param name).1 = .ok D)
    (hdig : (checksumParam param name).2 = h)
    (hnz : h ≠ zeroHash) :
    (h = hashFn D.flatten →
      checksumReadFile inner hashFn param mode name = (D.flatten, none)) ∧
    (h ≠ hashFn D.flatten →
      ∃ e, (checksumReadFile inner hashFn param mode name).2 = some e ∧
        errorIs e .checksumMismatch = true) := by
  have hopen : checksumOpen inner hashFn param mode name =
      match mode with
      | .afterRead => .ok (.verified D h)
      | .afterOpen =>
        match (checksumReadAll hashFn h D []).2 with
        | some e => .error (errChecksumFSFn e)
        | none => .ok (.eager (checksumReadAll hashFn h D []).1) := by
    simp only [checksumOpen, hinner, hdig]
    rw [if_neg hnz]
  constructor
  · intro heq
    cases mode with
    | afterRead =>
      rw [checksumReadFile, hopen]
      simp only [cksReadAllFile, checksumReadAll_spec, List.nil_append,
        if_pos heq]
    | afterOpen =>
      rw [checksumReadFile, hopen]
      simp only [checksumReadAll_spec, List.nil_append, if_pos heq,
        cksReadAllFile]
  · intro hne
    cases mode with
    | afterRead =>
      rw [checksumReadFile, hopen]
      simp only [cksReadAllFile, checksumReadAll_spec, List.nil_append,
        if_neg hne]
      exact ⟨.checksumMismatch, rfl, errorIs_refl .checksumMismatch rfl⟩
    | afterOpen =>
      rw [checksumReadFile, hopen]
      simp only [checksumReadAll_spec, List.nil_append, if_neg hne]
      refine ⟨errChecksumFSFn .checksumMismatch, rfl, ?_⟩
      simp [errChecksumFSFn, errorIs, goErrBeq]

/-- A concrete path carrying a checksum digest over 32 bytes:
31 zero bytes then the byte 3. -/
def cksName3 : GoStr :=
  gs "f?checksum=0x0000000000000000000000000000000000000000000000000000000000000003"

/-- The digest that path carries. -/
def cksHash3 : List Nat := List.replicate 31 0 ++ [3]

/-- A toy configurable hash: 31 zero bytes then the input length. -/
def lenHash (bytes : List Nat) : List Nat := List.replicate 31 0 ++ [bytes.length]

theorem checksum_verify_witness :
    cksHash3 ≠ zeroHash ∧
    checksumReadFile (fun _ => .ok [[1, 2], [3]]) lenHash (gs "checksum")
      .afterRead cksName3 = ([1, 2, 3], none) := by
  have hdig : (checksumParam (gs "checksum") cksName3).2 = cksHash3 := by
    have g1 : cksName3 = [102, 63] ++ [99, 104, 101, 99, 107, 115, 117, 109,
      61, 48, 120] ++ List.replicate 63 48 ++ [51] := by decide
    have g2 : gs "checksum" = [99, 104, 101, 99, 107, 115, 117, 109] := by
      decide
    rw [g1, g2]
    simp +decide [checksumParam, goCut, goParseQuery, goParseQueryLoop,
      goUnescapeQuery, valuesAdd, valuesGet, valuesLookup, valuesDel,
      hashFromHex, hexPairsToBytes, ishex, unhex, cksHash3]
  refine ⟨by decide, ?_⟩
  exact (checksum_verify (fun _ => .ok [[1, 2], [3]]) lenHash (gs "checksum")
    cksName3 .afterRead [[1, 2], [3]] cksHash3 rfl hdig (by decide)).1
    (by decide)
